import Mathlib

/-!
Shallow embedding of the GGLasso ADMM core (gglasso/solver/admm_solver.py and
gglasso/solver/ext_admm_solver.py) over exact real arithmetic.

Floating point numbers are modelled by real numbers.  Matrices of shape
(p, p) are modelled as values of Matrix (Fin p) (Fin p) Real, and a stack of
K such matrices (a numpy array of shape (K, p, p), or a dictionary with keys
0 .. K-1 holding per-instance matrices) as a function from Fin K.

The helper modules gglasso/solver/ggl_helper.py (phiplus, prox_p,
prox_od_1norm, prox_2norm), gglasso/helper/basic_linalg.py (trp) and
gglasso/helper/ext_admm_helper.py (check_G) are imported by the solver files
but are not part of the source tree given; the corresponding definitions
below are modelled from the specification and carry a doc comment starting
with the words Modelled from the spec.

np.linalg.eigh is an external LAPACK routine; the solvers receive it here as
an explicit oracle argument producing, for a matrix, a vector of eigenvalues
and a matrix of eigenvectors.  Assertions of the Python code are modelled by
Except values; the assertion on the shape of arrays is enforced by the types
of the embedding and is noted where it occurs.
-/

noncomputable section

open scoped BigOperators
open Matrix

/-- Soft-thresholding map sign(x) * max(0, |x| - t), the scalar shrinkage the
spec (section 4.2) uses for each off-diagonal entry. -/
def softThreshold (t x : ℝ) : ℝ := Real.sign x * max 0 (|x| - t)

/-- Frobenius norm of a single p x p matrix, np.linalg.norm for a 2d array:
the square root of the sum of the squared entries. -/
def frob {p : ℕ} (A : Matrix (Fin p) (Fin p) ℝ) : ℝ :=
  Real.sqrt (∑ i, ∑ j, (A i j) ^ 2)

/-- Frobenius norm of a stack of K matrices, np.linalg.norm for a 3d array:
the square root of the sum of all squared entries. -/
def frobStack {K p : ℕ} (A : Fin K → Matrix (Fin p) (Fin p) ℝ) : ℝ :=
  Real.sqrt (∑ k, ∑ i, ∑ j, (A k i j) ^ 2)

/-- Euclidean norm of a length-K vector, np.linalg.norm for a 1d array. -/
def vecNorm {K : ℕ} (v : Fin K → ℝ) : ℝ :=
  Real.sqrt (∑ k, (v k) ^ 2)

/-- Instance-wise transpose of a stacked array.  Modelled from the spec: trp
from gglasso/helper/basic_linalg.py is not in the given source tree; per its
use in the symmetry assertions it transposes the last two axes. -/
def trp {K p : ℕ} (A : Fin K → Matrix (Fin p) (Fin p) ℝ) :
    Fin K → Matrix (Fin p) (Fin p) ℝ :=
  fun k => (A k)ᵀ

/-- The scalar root map of the spectral proximal operator: for an eigenvalue
d and scale beta it returns (d + sqrt (d^2 + 4 beta)) / 2 (spec section 4.1). -/
def phiplusRoot (beta d : ℝ) : ℝ := (d + Real.sqrt (d ^ 2 + 4 * beta)) / 2

/-- Modelled from the spec: phiplus from gglasso/solver/ggl_helper.py is not
in the given source tree.  Per the recipe of section 4.1 it receives a
symmetric matrix A together with its eigendecomposition A = Q diag(d) Q^T
(precomputed by the caller with np.linalg.eigh) and the scale beta, and
reconstructs B = Q diag(b) Q^T where b_i = (d_i + sqrt (d_i^2 + 4 beta)) / 2.
The argument A itself is not needed for the reconstruction. -/
def phiplus {p : ℕ} (_A : Matrix (Fin p) (Fin p) ℝ) (beta : ℝ)
    (D : Fin p → ℝ) (Q : Matrix (Fin p) (Fin p) ℝ) :
    Matrix (Fin p) (Fin p) ℝ :=
  Q * Matrix.diagonal (fun i => phiplusRoot beta (D i)) * Qᵀ

/-- Modelled from the spec: prox_od_1norm from gglasso/solver/ggl_helper.py
is not in the given source tree.  Per sections 4.2 and 4.6 it applies the
plain soft-threshold to every off-diagonal entry and passes diagonal entries
through unchanged. -/
def prox_od_1norm {p : ℕ} (A : Matrix (Fin p) (Fin p) ℝ) (t : ℝ) :
    Matrix (Fin p) (Fin p) ℝ :=
  fun i j => if i = j then A i j else softThreshold t (A i j)

/-- Penalty selector of the multiple graphical lasso: the strings GGL and FGL
accepted by the reg argument of the solvers. -/
inductive Reg where
  | GGL : Reg
  | FGL : Reg
deriving DecidableEq, Repr

/-- One two-point difference-shrinkage step used by the fused branch of
prox_p: the pair (a, b) moves toward its mean by the soft-thresholded half
difference. -/
def adjustPair {K : ℕ} (t : ℝ) (v : Fin K → ℝ) (ij : Fin K × Fin K) :
    Fin K → ℝ :=
  let d := (v ij.1 - v ij.2) / 2
  let s := Real.sign d * min t |d|
  fun k => if k = ij.1 then v ij.1 - s else if k = ij.2 then v ij.2 + s else v k

/-- Difference soft-thresholding across the ordered sequence of K instances,
applied to consecutive pairs in order. -/
def fusedVec {K : ℕ} (t : ℝ) (v : Fin K → ℝ) : Fin K → ℝ :=
  (((List.finRange K).zip ((List.finRange K).drop 1))).foldl (adjustPair t) v

/-- Modelled from the spec: prox_p from gglasso/solver/ggl_helper.py is not
in the given source tree.  Per section 4.2, diagonal entries pass through
unchanged; in the group mode (GGL) every off-diagonal entry is soft-
thresholded independently per instance with scale l1; in the fused mode
(FGL) thresholding couples consecutive instances along the K-axis by
difference soft-thresholding with scale l2 after the l1 entry shrinkage (the
spec fixes only the coupling of consecutive instances; the realization of
the coupling below applies the exact two-point difference shrinkage to
successive pairs in order). -/
def prox_p {K p : ℕ} (T : Fin K → Matrix (Fin p) (Fin p) ℝ)
    (l1 l2 : ℝ) (reg : Reg) : Fin K → Matrix (Fin p) (Fin p) ℝ :=
  match reg with
  | .GGL => fun k => prox_od_1norm (T k) l1
  | .FGL => fun k i j =>
      if i = j then T k i j
      else fusedVec l2 (fun k2 => softThreshold l1 (T k2 i j)) k

theorem phiplusRoot_pos {beta d : ℝ} (hb : 0 < beta) : 0 < phiplusRoot beta d := by
  unfold phiplusRoot
  have h4 : 0 < d ^ 2 + 4 * beta := by positivity
  rcases le_or_lt 0 d with hd | hd
  · have : 0 < Real.sqrt (d ^ 2 + 4 * beta) := Real.sqrt_pos.mpr h4
    linarith
  · have hlt : -d < Real.sqrt (d ^ 2 + 4 * beta) := by
      rw [Real.lt_sqrt (by linarith : (0:ℝ) ≤ -d)]
      have : (-d) ^ 2 = d ^ 2 := by ring
      rw [this]
      linarith
    linarith

theorem phiplus_transpose {p : ℕ} (A : Matrix (Fin p) (Fin p) ℝ) (beta : ℝ)
    (D : Fin p → ℝ) (Q : Matrix (Fin p) (Fin p) ℝ) :
    (phiplus A beta D Q)ᵀ = phiplus A beta D Q := by
  unfold phiplus
  rw [Matrix.transpose_mul, Matrix.transpose_mul, Matrix.transpose_transpose,
    Matrix.diagonal_transpose, Matrix.mul_assoc]

theorem phiplus_isHermitian {p : ℕ} (A : Matrix (Fin p) (Fin p) ℝ) (beta : ℝ)
    (D : Fin p → ℝ) (Q : Matrix (Fin p) (Fin p) ℝ) :
    (phiplus A beta D Q).IsHermitian := by
  rw [Matrix.IsHermitian, Matrix.conjTranspose_eq_transpose_of_trivial]
  exact phiplus_transpose A beta D Q

theorem phiplus_posDef {p : ℕ} (A : Matrix (Fin p) (Fin p) ℝ) {beta : ℝ}
    (D : Fin p → ℝ) {Q : Matrix (Fin p) (Fin p) ℝ}
    (hQ : Qᵀ * Q = 1) (hb : 0 < beta) :
    (phiplus A beta D Q).PosDef := by
  constructor
  · exact phiplus_isHermitian A beta D Q
  · intro x hx
    have hQQ : Q * Qᵀ = 1 := Matrix.mul_eq_one_comm.mp hQ
    have hy : Qᵀ.mulVec x ≠ 0 := by
      intro h0
      apply hx
      have : (Q * Qᵀ).mulVec x = Q.mulVec (Qᵀ.mulVec x) :=
        (Matrix.mulVec_mulVec ..).symm
      rw [hQQ] at this
      simpa [h0] using this
    obtain ⟨i0, hi0⟩ := Function.ne_iff.mp hy
    unfold phiplus
    have hrw : dotProduct (star x)
        ((Q * Matrix.diagonal (fun i => phiplusRoot beta (D i)) * Qᵀ).mulVec x)
        = ∑ i, phiplusRoot beta (D i) * (Qᵀ.mulVec x i) ^ 2 := by
      have h1 : (Q * Matrix.diagonal (fun i => phiplusRoot beta (D i)) * Qᵀ).mulVec x
          = Q.mulVec ((Matrix.diagonal (fun i => phiplusRoot beta (D i))).mulVec
              (Qᵀ.mulVec x)) := by
        rw [Matrix.mulVec_mulVec, Matrix.mulVec_mulVec]
      rw [h1]
      have h2 : star x = x := rfl
      rw [h2, Matrix.dotProduct_mulVec]
      have h3 : x ᵥ* Q = Qᵀ.mulVec x := by
        rw [← Matrix.transpose_transpose Q, Matrix.vecMul_transpose,
          Matrix.transpose_transpose]
      rw [h3, dotProduct]
      refine Finset.sum_congr rfl fun i _ => ?_
      rw [Matrix.mulVec_diagonal]
      ring
    rw [hrw]
    apply Finset.sum_pos'
    · intro i _
      have := phiplusRoot_pos (d := D i) hb
      positivity
    · refine ⟨i0, Finset.mem_univ i0, ?_⟩
      have h1 := phiplusRoot_pos (d := D i0) hb
      have hi0n : Qᵀ.mulVec x i0 ≠ 0 := by simpa using hi0
      have h2 : (0:ℝ) < (Qᵀ.mulVec x i0) ^ 2 :=
        lt_of_le_of_ne (sq_nonneg _) (Ne.symm (pow_ne_zero 2 hi0n))
      exact mul_pos h1 h2

/-- Termination status reported by the solvers through the status field of
the info dictionary. -/
inductive Status where
  | notOptimal : Status
  | optimal : Status
  | maxIterationsReached : Status
deriving DecidableEq, Repr

/-- Eigendecomposition oracle modelling np.linalg.eigh (an external LAPACK
routine, not code of this repository): for a p x p matrix it returns a
vector of eigenvalues and a matrix whose columns are eigenvectors. -/
def EighOracle : Type :=
  (n : ℕ) → Matrix (Fin n) (Fin n) ℝ → (Fin n → ℝ) × Matrix (Fin n) (Fin n) ℝ

/-- Correctness of an eigendecomposition oracle at dimension n: on every
symmetric matrix it returns an orthogonal matrix Q and eigenvalues d with
M = Q diag(d) Q^T. -/
def EighCorrectAt (eig : EighOracle) (n : ℕ) : Prop :=
  ∀ M : Matrix (Fin n) (Fin n) ℝ, Mᵀ = M →
    ((eig n M).2)ᵀ * (eig n M).2 = 1 ∧
      M = (eig n M).2 * Matrix.diagonal (eig n M).1 * ((eig n M).2)ᵀ

/-- A concrete oracle that is exact for 1 x 1 matrices: the eigenvalue of a
scalar is the scalar itself and the eigenvector matrix is the identity. -/
def eigDiag : EighOracle := fun _n M => (fun i => M i i, 1)

/-- Iterate state of the conforming solver ADMM_MGL: the three stacked
K x p x p arrays Omega_t, Theta_t, X_t. -/
structure ConfState (K p : ℕ) where
  Om : Fin K → Matrix (Fin p) (Fin p) ℝ
  Th : Fin K → Matrix (Fin p) (Fin p) ℝ
  X : Fin K → Matrix (Fin p) (Fin p) ℝ

/-- Static data of a conforming solve: covariance stack S, scalar
regularization weights, penalty selector, per-instance sample sizes nk, step
size rho, tolerance, iteration budget, and the eigendecomposition oracle. -/
structure ConfParams (K p : ℕ) where
  S : Fin K → Matrix (Fin p) (Fin p) ℝ
  lambda1 : ℝ
  lambda2 : ℝ
  reg : Reg
  nk : Fin K → ℝ
  rho : ℝ
  epsAdmm : ℝ
  maxIter : ℕ
  eig : EighOracle

/-- One iteration body of the loop of ADMM_MGL (admm_solver.py lines 82-92):
the Omega update through phiplus on W_t = Theta_t - X_t - (nk / rho) S with
beta = nk / rho, then the Theta update through prox_p on Omega_t + X_t with
scales lambda1 / rho and lambda2 / rho, then the dual update of X_t. -/
def confUpdate {K p : ℕ} (P : ConfParams K p) (s : ConfState K p) :
    ConfState K p :=
  let W : Fin K → Matrix (Fin p) (Fin p) ℝ :=
    fun k => s.Th k - s.X k - (P.nk k / P.rho) • P.S k
  let Om : Fin K → Matrix (Fin p) (Fin p) ℝ :=
    fun k => phiplus (W k) (P.nk k / P.rho) (P.eig p (W k)).1 (P.eig p (W k)).2
  let Th := prox_p (fun k => Om k + s.X k) ((1 / P.rho) * P.lambda1)
    ((1 / P.rho) * P.lambda2) P.reg
  let X := fun k => s.X k + Om k - Th k
  ⟨Om, Th, X⟩

/-- ADMM_stopping_criterion of admm_solver.py (lines 118-136): the maximum
of three normalized residual terms; the shape assertions of the Python code
hold by the types of the embedding. -/
def confCriterion {K p : ℕ} (P : ConfParams K p) (s : ConfState K p) : ℝ :=
  let term1 := frobStack (fun k =>
      s.Th k - prox_p (fun k2 => s.Th k2 + s.X k2) P.lambda1 P.lambda2 P.reg k)
    / (1 + frobStack s.Th)
  let term2 := frobStack (fun k => s.Th k - s.Om k) / (1 + frobStack s.Th)
  let proxK : Fin K → Matrix (Fin p) (Fin p) ℝ := fun k =>
    let Ak := s.Om k - P.nk k • P.S k - s.X k
    phiplus Ak (P.nk k) (P.eig p Ak).1 (P.eig p Ak).2
  let term3 := frobStack (fun k => s.Om k - proxK k) / (1 + frobStack s.Om)
  max term1 (max term2 term3)

/-- Exit data of the iteration loop of ADMM_MGL: the final iterate state,
the list of recorded residuals (the written prefix of the kkt_residual
array, in order), the value of the Python loop variable iter_t at exit, the
number of loop iterations entered, the number of iterations that performed
the three updates, whether the loop exited through the break statement, and
the last computed residual eta_A. -/
structure ConfExit (K p : ℕ) where
  state : ConfState K p
  trace : List ℝ
  iterT : ℕ
  entered : ℕ
  updates : ℕ
  broke : Bool
  lastEta : ℝ

/-- The loop for iter_t in np.arange(max_iter) of ADMM_MGL (lines 68-99),
with the remaining fuel, the current value of iter_t, the current state, the
residuals recorded so far and the last computed residual as arguments.  Each
entered iteration first evaluates the stopping criterion and records it,
breaks if it is at most eps_admm, and otherwise performs the three updates.
When the fuel is exhausted the Python loop variable retains its final value
max_iter - 1, here t - 1. -/
def confLoopGo {K p : ℕ} (P : ConfParams K p) :
    ℕ → ℕ → ConfState K p → List ℝ → ℝ → ConfExit K p
  | 0, t, s, acc, lastEta =>
      ⟨s, acc, t - 1, acc.length, acc.length, false, lastEta⟩
  | fuel + 1, t, s, acc, _ =>
      let eta := confCriterion P s
      if eta ≤ P.epsAdmm then
        ⟨s, acc ++ [eta], t, acc.length + 1, acc.length, true, eta⟩
      else
        confLoopGo P fuel (t + 1) (confUpdate P s) (acc ++ [eta]) eta

/-- The full iteration phase of ADMM_MGL starting from the initial state. -/
def confRun {K p : ℕ} (P : ConfParams K p) (s0 : ConfState K p) : ConfExit K p :=
  confLoopGo P P.maxIter 0 s0 [] 0

/-- Status computation shared by both solver files (admm_solver.py lines 55,
77, 101-102 and ext_admm_solver.py lines 51, 76, 110-111): the status starts
as the string not optimal, the break sets it to optimal, and after the loop
it is overwritten with max iterations reached whenever the last computed
residual exceeds eps_admm. -/
def statusOf (epsAdmm : ℝ) (broke : Bool) (lastEta : ℝ) : Status :=
  if epsAdmm < lastEta then .maxIterationsReached
  else if broke then .optimal else .notOptimal

/-- Info dictionary returned by both solvers: the status, and only when the
measure flag is set, the slice kkt_residual[1 : iter_t + 1] of the residual
array and the slice runtime[:iter_t] of the wall-time array.  Wall-clock
values are environment dependent and not modelled; the runtime slice is
represented by a list of the correct length filled with zeros. -/
structure InfoBundle where
  status : Status
  kkt : Option (List ℝ)
  runtime : Option (List ℝ)

/-- Builds the info dictionary from the loop exit data (admm_solver.py lines
110-116, ext_admm_solver.py lines 120-126).  On both exit paths the slice
kkt_residual[1 : iter_t + 1] of the written array equals the recorded trace
without its head entry. -/
def infoOf (measure : Bool) (epsAdmm : ℝ) (broke : Bool) (lastEta : ℝ)
    (trace : List ℝ) (iterT : ℕ) : InfoBundle :=
  if measure then
    ⟨statusOf epsAdmm broke lastEta, some (trace.drop 1),
      some (List.replicate iterT 0)⟩
  else
    ⟨statusOf epsAdmm broke lastEta, none, none⟩

/-- The n_samples argument of ADMM_MGL: None, a single integer, or an array
of per-instance sample sizes. -/
inductive NSamples where
  | none : NSamples
  | int : ℕ → NSamples
  | array : List ℝ → NSamples

/-- The n_samples dispatch of ADMM_MGL (admm_solver.py lines 43-52): None
yields all-ones weights, an integer yields constant weights, and in the
remaining branch the Python code executes assert len(nk) == K which reads
the local variable nk before any assignment to it, so the call fails with
UnboundLocalError before the weights are built (with a numpy array the
comparison n_samples == None on line 46 is already ill-formed for K > 1). -/
def nkOf (K : ℕ) : NSamples → Except String (Fin K → ℝ)
  | .none => .ok fun _ => 1
  | .int n => .ok fun _ => (n : ℝ)
  | .array _ => .error "UnboundLocalError: local variable nk referenced before assignment"

/-- Entry tolerance of the symmetry assertions of the solvers. -/
def assertTol : ℝ := 1e-5

/-- Entrywise symmetry within tolerance: abs(M - M.T).max() <= tol, read as
a statement over all entries. -/
def SymmWithin {p : ℕ} (M : Matrix (Fin p) (Fin p) ℝ) (tol : ℝ) : Prop :=
  ∀ i j, |M i j - M j i| ≤ tol

/-- Precondition phase of ADMM_MGL (admm_solver It.py lines 23-26, 35,
43-52): the shape assertions hold by the types of the embedding, the
penalty selector is one of GGL and FGL by the type Reg, and the remaining
checks are assert min(lambda1, lambda2) > 0, assert rho > 0 for a rho
passed through kwargs, and the n_samples dispatch.  No symmetry check on S
occurs anywhere before the loop.  Returns the sample-size weights nk. -/
def confPreCheck (K : ℕ) (lambda1 lambda2 rho : ℝ) (ns : NSamples) :
    Except String (Fin K → ℝ) :=
  if ¬ (0 < min lambda1 lambda2) then .error "assert min(lambda1, lambda2) > 0"
  else if ¬ (0 < rho) then .error "assert rho > 0"
  else nkOf K ns

/-- Result dictionary of ADMM_MGL: the final Omega, Theta and X stacks. -/
structure ConfSol (K p : ℕ) where
  Om : Fin K → Matrix (Fin p) (Fin p) ℝ
  Th : Fin K → Matrix (Fin p) (Fin p) ℝ
  X : Fin K → Matrix (Fin p) (Fin p) ℝ

open Classical in
/-- Postcondition phase of ADMM_MGL on the loop exit data: the symmetry
assertions on the final Omega and Theta (admm_solver.py lines 107-108) and
the construction of the result and info bundles.  Assertion failures are
modelled as Except.error values. -/
def ADMM_MGL_post {K p : ℕ} (P : ConfParams K p) (e : ConfExit K p)
    (measure : Bool) : Except String (ConfSol K p × InfoBundle) :=
  if ¬ (∀ k, SymmWithin (e.state.Om k) assertTol) then
    .error "Solution is not symmetric"
  else if ¬ (∀ k, SymmWithin (e.state.Th k) assertTol) then
    .error "Solution is not symmetric"
  else
    .ok (⟨e.state.Om, e.state.Th, e.state.X⟩,
      infoOf measure P.epsAdmm e.broke e.lastEta e.trace e.iterT)

/-- Iteration and postcondition phase of ADMM_MGL: the loop from the built
parameter record and initial state, followed by the postcondition phase. -/
def ADMM_MGL_run {K p : ℕ} (P : ConfParams K p) (s0 : ConfState K p)
    (measure : Bool) : Except String (ConfSol K p × InfoBundle) :=
  ADMM_MGL_post P (confRun P s0) measure

/-- When the final iterate passes both symmetry assertions, the
postcondition phase returns the result and info bundles. -/
theorem ADMM_MGL_post_ok {K p : ℕ} {P : ConfParams K p} {e : ConfExit K p}
    {measure : Bool}
    (h1 : ∀ k, SymmWithin (e.state.Om k) assertTol)
    (h2 : ∀ k, SymmWithin (e.state.Th k) assertTol) :
    ADMM_MGL_post P e measure =
      .ok (⟨e.state.Om, e.state.Th, e.state.X⟩,
        infoOf measure P.epsAdmm e.broke e.lastEta e.trace e.iterT) := by
  unfold ADMM_MGL_post
  rw [if_neg (not_not_intro h1), if_neg (not_not_intro h2)]

/-- ADMM_MGL of admm_solver.py: the precondition phase, the defaulting of
Theta_0 to Omega_0 and of X_0 to zero (lines 55-63), and the iteration and
postcondition phase. -/
def ADMM_MGL {K p : ℕ} (S : Fin K → Matrix (Fin p) (Fin p) ℝ)
    (lambda1 lambda2 : ℝ) (reg : Reg)
    (Omega0 : Fin K → Matrix (Fin p) (Fin p) ℝ)
    (Theta0 : Option (Fin K → Matrix (Fin p) (Fin p) ℝ))
    (X0 : Option (Fin K → Matrix (Fin p) (Fin p) ℝ))
    (nSamples : NSamples) (epsAdmm : ℝ) (measure : Bool)
    (maxIter : ℕ) (rho : ℝ) (eig : EighOracle) :
    Except String (ConfSol K p × InfoBundle) :=
  match confPreCheck K lambda1 lambda2 rho nSamples with
  | .error e => .error e
  | .ok nk =>
      ADMM_MGL_run ⟨S, lambda1, lambda2, reg, nk, rho, epsAdmm, maxIter, eig⟩
        ⟨Omega0, Theta0.getD Omega0, X0.getD (fun _ => 0)⟩ measure

/-- When the precondition phase of ADMM_MGL accepts, the call is the
iteration and postcondition phase on the built parameters and start. -/
theorem ADMM_MGL_ok_dispatch {K p : ℕ} {S : Fin K → Matrix (Fin p) (Fin p) ℝ}
    {lambda1 lambda2 : ℝ} {reg : Reg}
    {Omega0 : Fin K → Matrix (Fin p) (Fin p) ℝ}
    {Theta0 X0 : Option (Fin K → Matrix (Fin p) (Fin p) ℝ)}
    {nSamples : NSamples} {epsAdmm : ℝ} {measure : Bool}
    {maxIter : ℕ} {rho : ℝ} {eig : EighOracle} {nk : Fin K → ℝ}
    (hpre : confPreCheck K lambda1 lambda2 rho nSamples = .ok nk) :
    ADMM_MGL S lambda1 lambda2 reg Omega0 Theta0 X0 nSamples epsAdmm measure
        maxIter rho eig =
      ADMM_MGL_run ⟨S, lambda1, lambda2, reg, nk, rho, epsAdmm, maxIter, eig⟩
        ⟨Omega0, Theta0.getD Omega0, X0.getD (fun _ => 0)⟩ measure := by
  unfold ADMM_MGL
  rw [hpre]

/-- Reads entry (a, b) of a p x p matrix with integer indices following the
indexing of the source language: an index i with -p <= i < p addresses
position i mod p, so -1 addresses the last row or column.  Indices outside
that range raise IndexError in the source language; they do not occur under
valid group maps and the embedding returns 0 there and for p = 0. -/
def getEntry {p : ℕ} (M : Matrix (Fin p) (Fin p) ℝ) (a b : ℤ) : ℝ :=
  if h : 0 < p then
    M ⟨(a % (p : ℤ)).toNat, by
        have h1 : 0 ≤ a % (p : ℤ) := Int.emod_nonneg a (by exact_mod_cast h.ne')
        have h2 : a % (p : ℤ) < (p : ℤ) := Int.emod_lt_of_pos a (by exact_mod_cast h)
        omega⟩
      ⟨(b % (p : ℤ)).toNat, by
        have h1 : 0 ≤ b % (p : ℤ) := Int.emod_nonneg b (by exact_mod_cast h.ne')
        have h2 : b % (p : ℤ) < (p : ℤ) := Int.emod_lt_of_pos b (by exact_mod_cast h)
        omega⟩
  else 0

/-- Writes value v at entry (a, b) of a p x p matrix, with the same integer
index semantics as getEntry. -/
def setEntry {p : ℕ} (M : Matrix (Fin p) (Fin p) ℝ) (a b : ℤ) (v : ℝ) :
    Matrix (Fin p) (Fin p) ℝ :=
  fun x y => if (x : ℤ) = a % (p : ℤ) ∧ (y : ℤ) = b % (p : ℤ) then v else M x y

/-- The two consecutive assignments X1[k][i, j] = v and X1[k][j, i] = v of
prox_2norm_G (ext_admm_solver.py lines 207-209). -/
def setEntrySym {p : ℕ} (M : Matrix (Fin p) (Fin p) ℝ) (a b : ℤ) (v : ℝ) :
    Matrix (Fin p) (Fin p) ℝ :=
  setEntry (setEntry M a b v) b a v

/-- A dictionary of per-instance square matrices with per-instance
dimensions, the data layout of the non-conforming solver. -/
def GDict (K : ℕ) (pd : Fin K → ℕ) : Type :=
  ∀ k : Fin K, Matrix (Fin (pd k)) (Fin (pd k)) ℝ

/-- Modelled from the spec: prox_2norm from gglasso/solver/ggl_helper.py is
not in the given source tree.  Per section 4.3 it maps a gathered vector v
to max(0, 1 - l2 / norm(v)) * v; with the division-by-zero convention of
the embedding the zero vector maps to itself, as the spec requires. -/
def prox_2norm {ι : Type} [Fintype ι] (v : ι → ℝ) (l2 : ℝ) : ι → ℝ :=
  fun i => max 0 (1 - l2 / Real.sqrt (∑ j, v j ^ 2)) * v i

/-- The set of instances participating in group l: exactly those k whose
first coordinate G[0, l, k] differs from the sentinel -1
(ext_admm_solver.py lines 194 and 204 test only this coordinate). -/
def presentSet {K L : ℕ} (G : Fin 2 → Fin L → Fin K → ℤ) (l : Fin L) :
    Finset (Fin K) :=
  Finset.univ.filter (fun k => G 0 l k ≠ -1)

/-- The value gathered for instance k while processing group l:
X[k][G[0, l, k], G[1, l, k]] (line 197). -/
def gatherVal {K L : ℕ} {pd : Fin K → ℕ} (X : GDict K pd)
    (G : Fin 2 → Fin L → Fin K → ℤ) (l : Fin L) (k : Fin K) : ℝ :=
  getEntry (X k) (G 0 l k) (G 1 l k)

/-- The compressed vector v = v0[~isnan(v0)] of group l after the shrinkage
z0 = prox_2norm(v, l2) (lines 199-201): the entries are indexed by the
participating instances. -/
def shrunkVal {K L : ℕ} {pd : Fin K → ℕ} (X : GDict K pd)
    (G : Fin 2 → Fin L → Fin K → ℤ) (l2 : ℝ) (l : Fin L) :
    {k : Fin K // k ∈ presentSet G l} → ℝ :=
  prox_2norm (fun kk => gatherVal X G l kk.1) l2

/-- Processing of one group l of prox_2norm_G (lines 190-209): instances
with sentinel first coordinate are left untouched; the other instances get
the shrunk value written back at (row, col) and (col, row).  The gathered
values are read from the input dictionary X, while the writes accumulate in
acc (the Python code reads from X and writes into the deep copy X1). -/
def groupStep {K L : ℕ} {pd : Fin K → ℕ} (X : GDict K pd)
    (G : Fin 2 → Fin L → Fin K → ℤ) (l2 : ℝ) (acc : GDict K pd) (l : Fin L) :
    GDict K pd :=
  fun k =>
    if h : G 0 l k = -1 then acc k
    else setEntrySym (acc k) (G 0 l k) (G 1 l k)
      (shrunkVal X G l2 l ⟨k, by simp [presentSet, h]⟩)

/-- The group loop of prox_2norm_G after its assertions: a deep copy of X
updated group by group in order. -/
def prox_2norm_G_core {K L : ℕ} {pd : Fin K → ℕ} (X : GDict K pd)
    (G : Fin 2 → Fin L → Fin K → ℤ) (l2 : ℝ) : GDict K pd :=
  (List.finRange L).foldl (groupStep X G l2) X

open Classical in
/-- prox_2norm_G of ext_admm_solver.py (lines 171-211): the assertions
l2 > 0 and entrywise symmetry of every X[k] within 1e-5, then the group
loop.  The shape assertions d[0] == 2 and d[2] == K hold by the types of
the embedding. -/
def prox_2norm_G {K L : ℕ} {pd : Fin K → ℕ} (X : GDict K pd)
    (G : Fin 2 → Fin L → Fin K → ℤ) (l2 : ℝ) :
    Except String (GDict K pd) :=
  if ¬ (0 < l2) then .error "assert l2 > 0"
  else if ¬ (∀ k, SymmWithin (X k) assertTol) then
    .error "X[k] has to be symmetric"
  else .ok (prox_2norm_G_core X G l2)

/-- Iterate state of the non-conforming solver ext_ADMM_MGL: the five
dictionaries Omega_t, Theta_t, Lambda_t, X0_t, X1_t. -/
structure ExtState (K : ℕ) (pd : Fin K → ℕ) where
  Om : GDict K pd
  Th : GDict K pd
  La : GDict K pd
  X0 : GDict K pd
  X1 : GDict K pd

/-- Static data of a non-conforming solve. -/
structure ExtParams (K : ℕ) (pd : Fin K → ℕ) (L : ℕ) where
  S : GDict K pd
  lambda1 : Fin K → ℝ
  lambda2 : ℝ
  G : Fin 2 → Fin L → Fin K → ℤ
  rho : ℝ
  epsAdmm : ℝ
  maxIter : ℕ
  eig : EighOracle

/-- One iteration body of ext_ADMM_MGL (lines 81-101): per-instance Omega
update through phiplus on Theta_t[k] - X0_t[k] - (1/rho) S[k] with
beta = 1/rho, per-instance Theta update through prox_od_1norm on the
half-sum with scale lambda1[k] / (2 rho), the Lambda update through
prox_2norm_G on Z = Theta_t + X1_t with scale lambda2 / rho, and the two
dual updates.  The symmetry assertion inside prox_2norm_G may fail, hence
the Except value. -/
def extUpdate {K L : ℕ} {pd : Fin K → ℕ} (P : ExtParams K pd L)
    (s : ExtState K pd) : Except String (ExtState K pd) :=
  let Om : GDict K pd := fun k =>
    let W := s.Th k - s.X0 k - (1 / P.rho) • P.S k
    phiplus W (1 / P.rho) (P.eig (pd k) W).1 (P.eig (pd k) W).2
  let Th : GDict K pd := fun k =>
    prox_od_1norm ((0.5 : ℝ) • (Om k + s.X0 k + s.La k - s.X1 k))
      (P.lambda1 k / (2 * P.rho))
  let Z : GDict K pd := fun k => Th k + s.X1 k
  match prox_2norm_G Z P.G (P.lambda2 / P.rho) with
  | .error e => .error e
  | .ok La =>
      .ok ⟨Om, Th, La, fun k => s.X0 k + Om k - Th k,
        fun k => s.X1 k + Th k - La k⟩

/-- ext_ADMM_stopping_criterion of ext_admm_solver.py (lines 128-156): five
per-instance normalized residual vectors, combined through their Euclidean
norms over k, and the maximum of the five norms.  The third term calls
prox_2norm_G on V = Lambda + X1 with scale lambda2, whose symmetry
assertion may fail, hence the Except value. -/
def extCriterion {K L : ℕ} {pd : Fin K → ℕ} (P : ExtParams K pd L)
    (s : ExtState K pd) : Except String ℝ :=
  let term1 : Fin K → ℝ := fun k =>
    let Ak := s.Om k - P.S k - s.X0 k
    frob (s.Om k - phiplus Ak 1 (P.eig (pd k) Ak).1 (P.eig (pd k) Ak).2)
      / (1 + frob (s.Om k))
  let term2 : Fin K → ℝ := fun k =>
    frob (s.Th k - prox_od_1norm (s.Th k + s.X0 k - s.X1 k) (P.lambda1 k))
      / (1 + frob (s.Th k))
  let V : GDict K pd := fun k => s.La k + s.X1 k
  let term4 : Fin K → ℝ := fun k =>
    frob (s.Om k - s.Th k) / (1 + frob (s.Th k))
  let term5 : Fin K → ℝ := fun k =>
    frob (s.La k - s.Th k) / (1 + frob (s.Th k))
  match prox_2norm_G V P.G P.lambda2 with
  | .error e => .error e
  | .ok V2 =>
      .ok (max (vecNorm term1) (max (vecNorm term2)
        (max (vecNorm (fun k => frob (V2 k - s.La k) / (1 + frob (s.La k))))
          (max (vecNorm term4) (vecNorm term5)))))

/-- Exit data of the iteration loop of ext_ADMM_MGL, with the same reading
as ConfExit. -/
structure ExtExit (K : ℕ) (pd : Fin K → ℕ) where
  state : ExtState K pd
  trace : List ℝ
  iterT : ℕ
  entered : ℕ
  updates : ℕ
  broke : Bool
  lastEta : ℝ

/-- The loop for iter_t in np.arange(max_iter) of ext_ADMM_MGL (lines
67-108): each entered iteration first evaluates the stopping criterion and
records it, breaks if it is at most eps_admm, and otherwise performs the
updates.  Assertion failures inside the criterion or the updates abort the
call with the corresponding error. -/
def extLoopGo {K L : ℕ} {pd : Fin K → ℕ} (P : ExtParams K pd L) :
    ℕ → ℕ → ExtState K pd → List ℝ → ℝ → Except String (ExtExit K pd)
  | 0, t, s, acc, lastEta =>
      .ok ⟨s, acc, t - 1, acc.length, acc.length, false, lastEta⟩
  | fuel + 1, t, s, acc, _ =>
      match extCriterion P s with
      | .error e => .error e
      | .ok eta =>
          if eta ≤ P.epsAdmm then
            .ok ⟨s, acc ++ [eta], t, acc.length + 1, acc.length, true, eta⟩
          else
            match extUpdate P s with
            | .error e => .error e
            | .ok s2 => extLoopGo P fuel (t + 1) s2 (acc ++ [eta]) eta

/-- The lambda1 argument of ext_ADMM_MGL: a scalar (a Python or numpy
float) or a vector of length K. -/
inductive Lam1 (K : ℕ) where
  | scalar : ℝ → Lam1 K
  | vec : (Fin K → ℝ) → Lam1 K

/-- The normalization of lambda1 of ext_ADMM_MGL (lines 31-32): a scalar
becomes lambda1 * np.ones(K), a vector is kept. -/
def normLam1 {K : ℕ} : Lam1 K → (Fin K → ℝ)
  | .scalar c => fun _ => c
  | .vec v => v

/-- Modelled from the spec: check_G from gglasso/helper/ext_admm_helper.py
is not in the given source tree.  Per section 3 it validates the group
index map: for every group and instance either both coordinates are the
sentinel -1, or both are valid indices into instance k.  A malformed map is
a fatal precondition violation. -/
def check_G {K L : ℕ} (G : Fin 2 → Fin L → Fin K → ℤ) (pd : Fin K → ℕ) :
    Except String Unit :=
  if (∀ l k, (G 0 l k = -1 ∧ G 1 l k = -1) ∨
      (0 ≤ G 0 l k ∧ G 0 l k < (pd k : ℤ) ∧ 0 ≤ G 1 l k ∧ G 1 l k < (pd k : ℤ)))
  then .ok () else .error "malformed group index map"

/-- Precondition phase of ext_ADMM_MGL (lines 26-47): lambda1 is normalized
to a length-K vector, then assert min(lambda1.min(), lambda2) > 0 (read
entrywise), assert reg in ['GGL'], check_G, and assert rho > 0 for a rho
passed through kwargs.  No symmetry check on S occurs before the loop.
Returns the normalized lambda1 vector. -/
def extPreCheck {K L : ℕ} (lambda1 : Lam1 K) (lambda2 : ℝ) (reg : Reg)
    (G : Fin 2 → Fin L → Fin K → ℤ) (pd : Fin K → ℕ) (rho : ℝ) :
    Except String (Fin K → ℝ) :=
  let l1 := normLam1 lambda1
  if ¬ ((∀ k, 0 < l1 k) ∧ 0 < lambda2) then
    .error "assert min(lambda1.min(), lambda2) > 0"
  else if reg ≠ .GGL then
    .error "assert reg in GGL"
  else
    match check_G G pd with
    | .error e => .error e
    | .ok _ =>
        if ¬ (0 < rho) then .error "assert rho > 0"
        else .ok l1

/-- Result dictionary of ext_ADMM_MGL: the final Omega, Theta, X0, X1
dictionaries. -/
structure ExtSol (K : ℕ) (pd : Fin K → ℕ) where
  Om : GDict K pd
  Th : GDict K pd
  X0 : GDict K pd
  X1 : GDict K pd

open Classical in
/-- Postcondition phase of ext_ADMM_MGL on the loop exit data: the symmetry
assertions on the final Omega[k] and Theta[k] (ext_admm_solver.py lines
116-118) and the construction of the result and info bundles. -/
def ext_ADMM_post {K L : ℕ} {pd : Fin K → ℕ} (P : ExtParams K pd L)
    (e : ExtExit K pd) (measure : Bool) :
    Except String (ExtSol K pd × InfoBundle) :=
  if ¬ (∀ k, SymmWithin (e.state.Om k) assertTol) then
    .error "Solution is not symmetric"
  else if ¬ (∀ k, SymmWithin (e.state.Th k) assertTol) then
    .error "Solution is not symmetric"
  else
    .ok (⟨e.state.Om, e.state.Th, e.state.X0, e.state.X1⟩,
      infoOf measure P.epsAdmm e.broke e.lastEta e.trace e.iterT)

/-- Iteration and postcondition phase of ext_ADMM_MGL. -/
def ext_ADMM_run {K L : ℕ} {pd : Fin K → ℕ} (P : ExtParams K pd L)
    (s0 : ExtState K pd) (measure : Bool) :
    Except String (ExtSol K pd × InfoBundle) :=
  match extLoopGo P P.maxIter 0 s0 [] 0 with
  | .error e => .error e
  | .ok e => ext_ADMM_post P e measure

/-- ext_ADMM_MGL of ext_admm_solver.py: precondition phase, initialization
Omega_t = Theta_t = Lambda_t = Omega_0 and X0_t = X1_t = 0 (lines 50-61),
then the iteration and postcondition phase. -/
def ext_ADMM_MGL {K L : ℕ} {pd : Fin K → ℕ} (S : GDict K pd)
    (lambda1 : Lam1 K) (lambda2 : ℝ) (reg : Reg) (Omega0 : GDict K pd)
    (G : Fin 2 → Fin L → Fin K → ℤ) (epsAdmm : ℝ) (measure : Bool)
    (maxIter : ℕ) (rho : ℝ) (eig : EighOracle) :
    Except String (ExtSol K pd × InfoBundle) :=
  match extPreCheck lambda1 lambda2 reg G pd rho with
  | .error e => .error e
  | .ok l1 =>
      ext_ADMM_run (⟨S, l1, lambda2, G, rho, epsAdmm, maxIter, eig⟩ :
          ExtParams K pd L)
        ⟨Omega0, Omega0, Omega0, fun _ => 0, fun _ => 0⟩ measure

/-- C1: each iteration of the conforming ADMM solver performs, in this
fixed order: Omega becomes the spectral proximal operator phiplus applied
to Theta - X - (n_k / rho) S with beta = n_k / rho for every instance k;
then Theta becomes the elementwise penalty proximal operator prox_p applied
to Omega + X with scales lambda1 / rho and lambda2 / rho in the configured
penalty mode; then the dual update X becomes X + Omega - Theta. -/
theorem C1_conf_update_order {K p : ℕ} (P : ConfParams K p) (s : ConfState K p) :
    (∀ k, (confUpdate P s).Om k =
      phiplus (s.Th k - s.X k - (P.nk k / P.rho) • P.S k) (P.nk k / P.rho)
        (P.eig p (s.Th k - s.X k - (P.nk k / P.rho) • P.S k)).1
        (P.eig p (s.Th k - s.X k - (P.nk k / P.rho) • P.S k)).2)
    ∧ (confUpdate P s).Th =
        prox_p (fun k => (confUpdate P s).Om k + s.X k)
          ((1 / P.rho) * P.lambda1) ((1 / P.rho) * P.lambda2) P.reg
    ∧ ∀ k, (confUpdate P s).X k =
        s.X k + (confUpdate P s).Om k - (confUpdate P s).Th k :=
  ⟨fun _ => rfl, rfl, fun _ => rfl⟩

/-- C2: for a matrix with eigendecomposition data (d, Q), Q orthogonal, and
beta > 0, phiplus returns Q diag(b) Q^T with b_i = (d_i + sqrt (d_i^2 +
4 beta)) / 2; the result is symmetric and positive definite with all
eigenvalues strictly positive, regardless of the signs of the d_i. -/
theorem C2_phiplus_spectral {p : ℕ} (A : Matrix (Fin p) (Fin p) ℝ)
    {beta : ℝ} (D : Fin p → ℝ) {Q : Matrix (Fin p) (Fin p) ℝ}
    (hQ : Qᵀ * Q = 1) (hb : 0 < beta) :
    phiplus A beta D Q =
      Q * Matrix.diagonal
        (fun i => (D i + Real.sqrt ((D i) ^ 2 + 4 * beta)) / 2) * Qᵀ
    ∧ (phiplus A beta D Q)ᵀ = phiplus A beta D Q
    ∧ (phiplus A beta D Q).PosDef
    ∧ ∀ (h : (phiplus A beta D Q).IsHermitian) (i : Fin p),
        0 < h.eigenvalues i := by
  refine ⟨rfl, phiplus_transpose A beta D Q, phiplus_posDef A D hQ hb, ?_⟩
  intro h i
  have hpd := phiplus_posDef A D hQ hb
  have := hpd.eigenvalues_pos i
  have hirr : hpd.1 = h := rfl
  rw [hirr] at this
  exact this

/-- Witness for C2 at p = 1, Q the identity, a negative eigenvalue -3 and
beta = 1. -/
theorem C2_phiplus_spectral_witness :
    ((1 : Matrix (Fin 1) (Fin 1) ℝ)ᵀ * 1 = 1) ∧ (0 : ℝ) < 1 ∧
      (phiplus (0 : Matrix (Fin 1) (Fin 1) ℝ) 1 (fun _ => -3) 1).PosDef := by
  refine ⟨by simp, by norm_num, ?_⟩
  exact (C2_phiplus_spectral (0 : Matrix (Fin 1) (Fin 1) ℝ) (fun _ => -3)
    (by simp) (by norm_num)).2.2.1

theorem frob_nonneg {p : ℕ} (A : Matrix (Fin p) (Fin p) ℝ) : 0 ≤ frob A :=
  Real.sqrt_nonneg _

theorem frobStack_nonneg {K p : ℕ} (A : Fin K → Matrix (Fin p) (Fin p) ℝ) :
    0 ≤ frobStack A :=
  Real.sqrt_nonneg _

theorem vecNorm_nonneg {K : ℕ} (v : Fin K → ℝ) : 0 ≤ vecNorm v :=
  Real.sqrt_nonneg _

/-- The stopping criterion of the conforming solver is a maximum of
quotients of norms and hence nonnegative. -/
theorem confCriterion_nonneg {K p : ℕ} (P : ConfParams K p) (s : ConfState K p) :
    0 ≤ confCriterion P s := by
  have h : 0 ≤ frobStack (fun k =>
      s.Th k - prox_p (fun k2 => s.Th k2 + s.X k2) P.lambda1 P.lambda2 P.reg k)
      / (1 + frobStack s.Th) :=
    div_nonneg (frobStack_nonneg _) (by linarith [frobStack_nonneg s.Th])
  exact le_trans h (le_max_left _ _)

theorem prox_od_1norm_symm {p : ℕ} {A : Matrix (Fin p) (Fin p) ℝ}
    (hA : Aᵀ = A) (t : ℝ) : (prox_od_1norm A t)ᵀ = prox_od_1norm A t := by
  ext i j
  have hij : A j i = A i j := congrFun (congrFun hA i) j
  by_cases h : i = j
  · subst h
    simp [prox_od_1norm]
  · simp only [Matrix.transpose_apply, prox_od_1norm]
    rw [if_neg (fun hji : j = i => h (Eq.symm hji)), if_neg h, hij]

theorem prox_p_symm {K p : ℕ} {T : Fin K → Matrix (Fin p) (Fin p) ℝ}
    (hT : ∀ k, (T k)ᵀ = T k) (l1 l2 : ℝ) (reg : Reg) (k : Fin K) :
    (prox_p T l1 l2 reg k)ᵀ = prox_p T l1 l2 reg k := by
  cases reg with
  | GGL => exact prox_od_1norm_symm (hT k) l1
  | FGL =>
      ext i j
      have hij : ∀ k2, T k2 j i = T k2 i j :=
        fun k2 => congrFun (congrFun (hT k2) i) j
      by_cases h : i = j
      · subst h
        simp [prox_p]
      · have hfun : (fun k2 => softThreshold l1 (T k2 j i)) =
            (fun k2 => softThreshold l1 (T k2 i j)) := by
          funext k2
          rw [hij k2]
        simp only [Matrix.transpose_apply, prox_p]
        rw [if_neg (fun hji : j = i => h (Eq.symm hji)), if_neg h, hfun]

/-- Entrywise symmetry of all three components of a conforming iterate. -/
def ConfSym {K p : ℕ} (s : ConfState K p) : Prop :=
  (∀ k, (s.Om k)ᵀ = s.Om k) ∧ (∀ k, (s.Th k)ᵀ = s.Th k) ∧
    (∀ k, (s.X k)ᵀ = s.X k)

theorem confUpdate_sym {K p : ℕ} (P : ConfParams K p) {s : ConfState K p}
    (hs : ConfSym s) : ConfSym (confUpdate P s) := by
  obtain ⟨_hOm, _hTh, hX⟩ := hs
  have hOm2 : ∀ k, ((confUpdate P s).Om k)ᵀ = (confUpdate P s).Om k := by
    intro k
    have hk : (confUpdate P s).Om k =
        phiplus (s.Th k - s.X k - (P.nk k / P.rho) • P.S k) (P.nk k / P.rho)
          (P.eig p (s.Th k - s.X k - (P.nk k / P.rho) • P.S k)).1
          (P.eig p (s.Th k - s.X k - (P.nk k / P.rho) • P.S k)).2 := rfl
    rw [hk]
    exact phiplus_transpose _ _ _ _
  have hTh2 : ∀ k, ((confUpdate P s).Th k)ᵀ = (confUpdate P s).Th k := by
    intro k
    refine prox_p_symm (fun k2 => ?_) _ _ _ k
    show ((confUpdate P s).Om k2 + s.X k2)ᵀ = (confUpdate P s).Om k2 + s.X k2
    rw [Matrix.transpose_add, hOm2 k2, hX k2]
  refine ⟨hOm2, hTh2, fun k => ?_⟩
  show (s.X k + (confUpdate P s).Om k - (confUpdate P s).Th k)ᵀ = _
  rw [Matrix.transpose_sub, Matrix.transpose_add, hX k, hOm2 k, hTh2 k]
  rfl

/-- n-fold application of the iteration body of the conforming solver. -/
def confIter {K p : ℕ} (P : ConfParams K p) (s : ConfState K p) (n : ℕ) :
    ConfState K p :=
  (confUpdate P)^[n] s

theorem confIter_sym {K p : ℕ} (P : ConfParams K p) {s : ConfState K p}
    (hs : ConfSym s) (n : ℕ) : ConfSym (confIter P s n) := by
  induction n with
  | zero => exact hs
  | succ n ih =>
      rw [confIter, Function.iterate_succ_apply']
      exact confUpdate_sym P ih

theorem confLoopGo_state_sym {K p : ℕ} (P : ConfParams K p) :
    ∀ (fuel t : ℕ) (s : ConfState K p) (acc : List ℝ) (last : ℝ),
      ConfSym s → ConfSym (confLoopGo P fuel t s acc last).state := by
  intro fuel
  induction fuel with
  | zero => intro t s acc last hs; exact hs
  | succ fuel ih =>
      intro t s acc last hs
      rw [confLoopGo]
      by_cases h : confCriterion P s ≤ P.epsAdmm
      · simpa [h] using hs
      · simpa [h] using ih (t + 1) (confUpdate P s) _ _ (confUpdate_sym P hs)

theorem symmWithin_of_transpose_eq {p : ℕ} {M : Matrix (Fin p) (Fin p) ℝ}
    (h : Mᵀ = M) {tol : ℝ} (ht : 0 ≤ tol) : SymmWithin M tol := by
  intro i j
  have hij : M j i = M i j := congrFun (congrFun h i) j
  rw [hij]
  simpa using ht

/-- On the break exit path of the conforming loop, the final state is the
iterate the loop entered that iteration with (the pre-update state), the
last residual is the criterion of that state and is within tolerance, and
the bookkeeping counters agree: the trace holds one entry more than the
number of performed updates and iter_t equals the number of updates. -/
theorem confLoopGo_broke_spec {K p : ℕ} (P : ConfParams K p) :
    ∀ (fuel t : ℕ) (s : ConfState K p) (acc : List ℝ) (last : ℝ),
      acc.length = t →
      (confLoopGo P fuel t s acc last).broke = true →
      (confLoopGo P fuel t s acc last).state =
          confIter P s ((confLoopGo P fuel t s acc last).updates - t) ∧
      (confLoopGo P fuel t s acc last).lastEta =
          confCriterion P (confLoopGo P fuel t s acc last).state ∧
      (confLoopGo P fuel t s acc last).lastEta ≤ P.epsAdmm ∧
      (confLoopGo P fuel t s acc last).trace.length =
          (confLoopGo P fuel t s acc last).updates + 1 ∧
      (confLoopGo P fuel t s acc last).entered =
          (confLoopGo P fuel t s acc last).updates + 1 ∧
      (confLoopGo P fuel t s acc last).iterT =
          (confLoopGo P fuel t s acc last).updates ∧
      t ≤ (confLoopGo P fuel t s acc last).updates := by
  intro fuel
  induction fuel with
  | zero =>
      intro t s acc last hlen hbroke
      simp [confLoopGo] at hbroke
  | succ fuel ih =>
      intro t s acc last hlen hbroke
      by_cases hbr : confCriterion P s ≤ P.epsAdmm
      · have hred : confLoopGo P (fuel + 1) t s acc last =
            ⟨s, acc ++ [confCriterion P s], t, acc.length + 1, acc.length, true,
              confCriterion P s⟩ := by
          simp only [confLoopGo, if_pos hbr]
        rw [hred]
        refine ⟨?_, rfl, hbr, by simp, rfl, hlen.symm, by
          show t ≤ acc.length
          omega⟩
        show s = confIter P s (acc.length - t)
        rw [hlen]
        simp [confIter]
      · have hred : confLoopGo P (fuel + 1) t s acc last =
            confLoopGo P fuel (t + 1) (confUpdate P s) (acc ++ [confCriterion P s])
              (confCriterion P s) := by
          simp only [confLoopGo, if_neg hbr]
        rw [hred] at hbroke ⊢
        have hlen2 : (acc ++ [confCriterion P s]).length = t + 1 := by
          simp [hlen]
        obtain ⟨h1, h2, h3, h4, h5, h6, h7⟩ := ih (t + 1) (confUpdate P s) _ _ hlen2 hbroke
        refine ⟨?_, h2, h3, h4, h5, h6, by omega⟩
        rw [h1]
        have harith :
            (confLoopGo P fuel (t + 1) (confUpdate P s)
              (acc ++ [confCriterion P s]) (confCriterion P s)).updates - t =
            ((confLoopGo P fuel (t + 1) (confUpdate P s)
              (acc ++ [confCriterion P s]) (confCriterion P s)).updates - (t + 1)) + 1 := by
          omega
        rw [harith]
        show confIter P (confUpdate P s) _ = confIter P s _
        simp [confIter, Function.iterate_succ_apply]

/-- On the fuel-exhaustion exit path of the conforming loop, every entered
iteration performed the updates, the counters and the final state are
determined by the fuel, every evaluated residual exceeded the tolerance,
and the last residual is the one of the final entered iteration. -/
theorem confLoopGo_nobreak_spec {K p : ℕ} (P : ConfParams K p) :
    ∀ (fuel t : ℕ) (s : ConfState K p) (acc : List ℝ) (last : ℝ),
      acc.length = t →
      (confLoopGo P fuel t s acc last).broke = false →
      (confLoopGo P fuel t s acc last).trace.length = t + fuel ∧
      (confLoopGo P fuel t s acc last).entered = t + fuel ∧
      (confLoopGo P fuel t s acc last).updates = t + fuel ∧
      (confLoopGo P fuel t s acc last).iterT = t + fuel - 1 ∧
      (confLoopGo P fuel t s acc last).state = confIter P s fuel ∧
      (∀ n < fuel, P.epsAdmm < confCriterion P (confIter P s n)) ∧
      (fuel = 0 → (confLoopGo P fuel t s acc last).lastEta = last) ∧
      (1 ≤ fuel →
        (confLoopGo P fuel t s acc last).lastEta =
          confCriterion P (confIter P s (fuel - 1)) ∧
        P.epsAdmm < (confLoopGo P fuel t s acc last).lastEta) := by
  intro fuel
  induction fuel with
  | zero =>
      intro t s acc last hlen _hbroke
      refine ⟨by simpa [confLoopGo] using hlen, by simpa [confLoopGo] using hlen,
        by simpa [confLoopGo] using hlen, by simp [confLoopGo],
        by simp [confLoopGo, confIter], by omega, fun _ => by simp [confLoopGo],
        by omega⟩
  | succ fuel ih =>
      intro t s acc last hlen hbroke
      by_cases hbr : confCriterion P s ≤ P.epsAdmm
      · simp [confLoopGo, if_pos hbr] at hbroke
      · have hred : confLoopGo P (fuel + 1) t s acc last =
            confLoopGo P fuel (t + 1) (confUpdate P s) (acc ++ [confCriterion P s])
              (confCriterion P s) := by
          simp only [confLoopGo, if_neg hbr]
        rw [hred] at hbroke ⊢
        have hlen2 : (acc ++ [confCriterion P s]).length = t + 1 := by
          simp [hlen]
        obtain ⟨h1, h2, h3, h4, h5, h6, h7, h8⟩ :=
          ih (t + 1) (confUpdate P s) _ _ hlen2 hbroke
        have hiter : ∀ n, confIter P (confUpdate P s) n = confIter P s (n + 1) := by
          intro n
          simp [confIter, Function.iterate_succ_apply]
        refine ⟨by omega, by omega, by omega, by omega, ?_, ?_,
          fun h => absurd h (Nat.succ_ne_zero fuel), ?_⟩
        · rw [h5, hiter]
        · intro n hn
          cases n with
          | zero => simpa [confIter] using lt_of_not_le hbr
          | succ m =>
              have := h6 m (by omega)
              rwa [hiter] at this
        · intro _
          rcases Nat.eq_zero_or_pos fuel with hf0 | hfpos
          · subst hf0
            have := h7 rfl
            refine ⟨?_, ?_⟩
            · rw [this]
              simp [confIter]
            · rw [this]
              exact lt_of_not_le hbr
          · obtain ⟨ha, hb⟩ := h8 hfpos
            refine ⟨?_, hb⟩
            rw [ha, hiter]
            have hidx : fuel - 1 + 1 = fuel + 1 - 1 := by omega
            rw [hidx]

/-- The conforming loop exits through the break statement exactly when some
iterate within the budget satisfies the tolerance. -/
theorem confLoopGo_broke_iff {K p : ℕ} (P : ConfParams K p) :
    ∀ (fuel t : ℕ) (s : ConfState K p) (acc : List ℝ) (last : ℝ),
      ((confLoopGo P fuel t s acc last).broke = true ↔
        ∃ n < fuel, confCriterion P (confIter P s n) ≤ P.epsAdmm) := by
  intro fuel
  induction fuel with
  | zero =>
      intro t s acc last
      simp [confLoopGo]
  | succ fuel ih =>
      intro t s acc last
      by_cases hbr : confCriterion P s ≤ P.epsAdmm
      · simp only [confLoopGo, if_pos hbr]
        constructor
        · intro _
          exact ⟨0, by omega, by simpa [confIter] using hbr⟩
        · intro _
          trivial
      · have hred : confLoopGo P (fuel + 1) t s acc last =
            confLoopGo P fuel (t + 1) (confUpdate P s) (acc ++ [confCriterion P s])
              (confCriterion P s) := by
          simp only [confLoopGo, if_neg hbr]
        rw [hred, ih]
        have hiter : ∀ n, confIter P (confUpdate P s) n = confIter P s (n + 1) := by
          intro n
          simp [confIter, Function.iterate_succ_apply]
        constructor
        · rintro ⟨n, hn, hle⟩
          exact ⟨n + 1, by omega, by rwa [hiter] at hle⟩
        · rintro ⟨n, hn, hle⟩
          cases n with
          | zero => exact absurd (by simpa [confIter] using hle) hbr
          | succ m => exact ⟨m, by omega, by rwa [hiter]⟩

/-- Every entry of the recorded residual list of the conforming loop is the
stopping criterion evaluated at the corresponding iterate, the state the
loop entered that iteration with. -/
theorem confLoopGo_trace_get {K p : ℕ} (P : ConfParams K p) :
    ∀ (fuel t : ℕ) (s : ConfState K p) (acc : List ℝ) (last : ℝ) (j : ℕ),
      j < (confLoopGo P fuel t s acc last).trace.length →
      (confLoopGo P fuel t s acc last).trace[j]? =
        if j < acc.length then acc[j]?
        else some (confCriterion P (confIter P s (j - acc.length))) := by
  intro fuel
  induction fuel with
  | zero =>
      intro t s acc last j hj
      simp only [confLoopGo] at hj ⊢
      rw [if_pos hj]
  | succ fuel ih =>
      intro t s acc last j hj
      by_cases hbr : confCriterion P s ≤ P.epsAdmm
      · simp only [confLoopGo, if_pos hbr] at hj ⊢
        simp only [List.length_append, List.length_cons, List.length_nil] at hj
        rcases Nat.lt_or_ge j acc.length with hlt | hge
        · rw [if_pos hlt, List.getElem?_append_left hlt]
        · have hj2 : j = acc.length := by omega
          subst hj2
          rw [if_neg (by omega)]
          simp [confIter]
      · have hred : confLoopGo P (fuel + 1) t s acc last =
            confLoopGo P fuel (t + 1) (confUpdate P s) (acc ++ [confCriterion P s])
              (confCriterion P s) := by
          simp only [confLoopGo, if_neg hbr]
        rw [hred] at hj ⊢
        rw [ih _ _ _ _ j hj]
        have hiter : ∀ n, confIter P (confUpdate P s) n = confIter P s (n + 1) := by
          intro n
          simp [confIter, Function.iterate_succ_apply]
        have hlenapp : (acc ++ [confCriterion P s]).length = acc.length + 1 := by
          simp
        rcases Nat.lt_or_ge j acc.length with hlt | hge
        · rw [if_pos (by omega), if_pos hlt, List.getElem?_append_left hlt]
        · rcases Nat.lt_or_ge j (acc.length + 1) with hlt2 | hge2
          · have hj2 : j = acc.length := by omega
            subst hj2
            rw [if_pos (by omega), if_neg (by omega)]
            simp [confIter]
          · rw [if_neg (by omega), if_neg (by omega), hiter]
            have hidx : j - (acc ++ [confCriterion P s]).length + 1 =
                j - acc.length := by
              rw [hlenapp]
              omega
            rw [hidx]

theorem frobStack_one (A : Fin 1 → Matrix (Fin 1) (Fin 1) ℝ) :
    frobStack A = |A 0 0 0| := by
  unfold frobStack
  rw [Fin.sum_univ_one, Fin.sum_univ_one, Fin.sum_univ_one, Real.sqrt_sq_eq_abs]

/-- On 1 x 1 matrices every entry is diagonal, so the elementwise penalty
proximal operator passes the single entry through unchanged in both
penalty modes. -/
theorem prox_p_one (T : Fin 1 → Matrix (Fin 1) (Fin 1) ℝ) (l1 l2 : ℝ)
    (reg : Reg) (k : Fin 1) : prox_p T l1 l2 reg k = T k := by
  cases reg with
  | GGL =>
      ext i j
      have hij : i = j := Subsingleton.elim i j
      simp [prox_p, prox_od_1norm, hij]
  | FGL =>
      ext i j
      have hij : i = j := Subsingleton.elim i j
      simp [prox_p, hij]

theorem phiplus_Q_one {p : ℕ} (A : Matrix (Fin p) (Fin p) ℝ) (beta : ℝ)
    (D : Fin p → ℝ) :
    phiplus A beta D 1 = Matrix.diagonal (fun i => phiplusRoot beta (D i)) := by
  unfold phiplus
  simp

/-- Explicit value of the stopping criterion of the conforming solver in
the scalar case K = p = 1 with the exact 1 x 1 oracle. -/
theorem confCriterion_one_eval (P : ConfParams 1 1) (heig : P.eig = eigDiag)
    (s : ConfState 1 1) :
    confCriterion P s =
      max (|s.X 0 0 0| / (1 + |s.Th 0 0 0|))
        (max (|s.Th 0 0 0 - s.Om 0 0 0| / (1 + |s.Th 0 0 0|))
          (|s.Om 0 0 0 -
              phiplusRoot (P.nk 0)
                (s.Om 0 0 0 - P.nk 0 * P.S 0 0 0 - s.X 0 0 0)| /
            (1 + |s.Om 0 0 0|))) := by
  simp only [confCriterion, heig, eigDiag]
  simp only [frobStack_one, prox_p_one, phiplus_Q_one]
  simp only [Matrix.sub_apply, Matrix.add_apply, Matrix.smul_apply,
    smul_eq_mul, Matrix.diagonal_apply_eq]
  have h1 : s.Th 0 0 0 - (s.Th 0 0 0 + s.X 0 0 0) = -(s.X 0 0 0) := by ring
  rw [h1, abs_neg]

/-- Explicit value of the iteration body of the conforming solver in the
scalar case K = p = 1 with the exact 1 x 1 oracle: the new Omega entry is
the phiplus root of the shifted entry, the new Theta entry adds the dual
entry back, and the new dual entry is always zero. -/
theorem confUpdate_one_eval (P : ConfParams 1 1) (heig : P.eig = eigDiag)
    (s : ConfState 1 1) :
    (confUpdate P s).Om 0 0 0 =
      phiplusRoot (P.nk 0 / P.rho)
        (s.Th 0 0 0 - s.X 0 0 0 - P.nk 0 / P.rho * P.S 0 0 0) ∧
    (confUpdate P s).Th 0 0 0 = (confUpdate P s).Om 0 0 0 + s.X 0 0 0 ∧
    (confUpdate P s).X 0 0 0 = 0 := by
  have hOm : (confUpdate P s).Om 0 0 0 =
      phiplusRoot (P.nk 0 / P.rho)
        (s.Th 0 0 0 - s.X 0 0 0 - P.nk 0 / P.rho * P.S 0 0 0) := by
    show (phiplus (s.Th 0 - s.X 0 - (P.nk 0 / P.rho) • P.S 0) (P.nk 0 / P.rho)
        (P.eig 1 (s.Th 0 - s.X 0 - (P.nk 0 / P.rho) • P.S 0)).1
        (P.eig 1 (s.Th 0 - s.X 0 - (P.nk 0 / P.rho) • P.S 0)).2) 0 0 = _
    rw [heig]
    simp only [eigDiag, phiplus_Q_one]
    simp [Matrix.sub_apply, Matrix.smul_apply, smul_eq_mul]
  have hTh : (confUpdate P s).Th 0 0 0 = (confUpdate P s).Om 0 0 0 + s.X 0 0 0 := by
    show (prox_p (fun k => (confUpdate P s).Om k + s.X k)
        ((1 / P.rho) * P.lambda1) ((1 / P.rho) * P.lambda2) P.reg 0) 0 0 = _
    rw [prox_p_one]
    simp [Matrix.add_apply]
  refine ⟨hOm, hTh, ?_⟩
  show (s.X 0 + (confUpdate P s).Om 0 - (confUpdate P s).Th 0) 0 0 = 0
  have h2 : ((confUpdate P s).Th) 0 0 0 = (confUpdate P s).Om 0 0 0 + s.X 0 0 0 := hTh
  simp only [Matrix.sub_apply, Matrix.add_apply]
  rw [h2]
  ring

theorem sqrt_four : Real.sqrt 4 = 2 := by
  rw [show (4:ℝ) = 2 ^ 2 by norm_num, Real.sqrt_sq (by norm_num : (0:ℝ) ≤ 2)]

theorem two_le_sqrt_five : 2 ≤ Real.sqrt 5 := by
  rw [← sqrt_four]
  exact Real.sqrt_le_sqrt (by norm_num)

theorem sqrt_five_lt_three : Real.sqrt 5 < 3 := by
  have h9 : Real.sqrt 9 = 3 := by
    rw [show (9:ℝ) = 3 ^ 2 by norm_num, Real.sqrt_sq (by norm_num : (0:ℝ) ≤ 3)]
  calc Real.sqrt 5 < Real.sqrt 9 := Real.sqrt_lt_sqrt (by norm_num) (by norm_num)
    _ = 3 := h9

/-- Concrete conforming problem with K = 1, p = 1: zero covariance, unit
regularization weights, group penalty, unit sample weight, rho = 1, and the
exact 1 x 1 eigendecomposition oracle. -/
def confP0 (eps : ℝ) (maxIter : ℕ) : ConfParams 1 1 :=
  ⟨fun _ => 0, 1, 1, .GGL, fun _ => 1, 1, eps, maxIter, eigDiag⟩

/-- The all-zero starting state of the concrete conforming problem. -/
def confS00 : ConfState 1 1 := ⟨fun _ => 0, fun _ => 0, fun _ => 0⟩

theorem eta0_eval (eps : ℝ) (mi : ℕ) :
    confCriterion (confP0 eps mi) confS00 = 1 := by
  rw [confCriterion_one_eval _ rfl]
  have hphi : phiplusRoot 1 (0 - 1 * 0 - 0 : ℝ) = 1 := by
    rw [show (0 - 1 * 0 - 0 : ℝ) = 0 by norm_num]
    rw [phiplusRoot, show ((0:ℝ) ^ 2 + 4 * 1) = 4 by norm_num, sqrt_four]
    norm_num
  simp only [confP0, confS00, Matrix.zero_apply]
  rw [hphi]
  norm_num

theorem state1_Om_eval (eps : ℝ) (mi : ℕ) :
    (confUpdate (confP0 eps mi) confS00).Om 0 0 0 = 1 := by
  obtain ⟨hOm, _, _⟩ := confUpdate_one_eval (confP0 eps mi) rfl confS00
  rw [hOm]
  simp only [confP0, confS00, Matrix.zero_apply]
  rw [show ((0:ℝ) - 0 - 1 / 1 * 0) = 0 by norm_num]
  rw [phiplusRoot, show ((0:ℝ) ^ 2 + 4 * (1 / 1)) = 4 by norm_num, sqrt_four]
  norm_num

theorem state1_Th_eval (eps : ℝ) (mi : ℕ) :
    (confUpdate (confP0 eps mi) confS00).Th 0 0 0 = 1 := by
  obtain ⟨_, hTh, _⟩ := confUpdate_one_eval (confP0 eps mi) rfl confS00
  rw [hTh, state1_Om_eval]
  simp [confS00]

theorem state1_X_eval (eps : ℝ) (mi : ℕ) :
    (confUpdate (confP0 eps mi) confS00).X 0 0 0 = 0 :=
  (confUpdate_one_eval (confP0 eps mi) rfl confS00).2.2

theorem eta1_eval (eps : ℝ) (mi : ℕ) :
    confCriterion (confP0 eps mi) (confUpdate (confP0 eps mi) confS00) =
      (Real.sqrt 5 - 1) / 4 := by
  rw [confCriterion_one_eval _ rfl]
  rw [state1_Om_eval, state1_Th_eval, state1_X_eval]
  have hnk : (confP0 eps mi).nk 0 = 1 := rfl
  have hS : (confP0 eps mi).S 0 0 0 = 0 := rfl
  rw [hnk, hS]
  have hphi : phiplusRoot 1 ((1:ℝ) - 1 * 0 - 0) = (1 + Real.sqrt 5) / 2 := by
    rw [show ((1:ℝ) - 1 * 0 - 0) = 1 by norm_num]
    rw [phiplusRoot, show ((1:ℝ) ^ 2 + 4 * 1) = 5 by norm_num]
  rw [hphi]
  have h5 := two_le_sqrt_five
  have habs : |(1:ℝ) - (1 + Real.sqrt 5) / 2| = (Real.sqrt 5 - 1) / 2 := by
    rw [show (1:ℝ) - (1 + Real.sqrt 5) / 2 = -((Real.sqrt 5 - 1) / 2) by ring,
      abs_neg]
    exact abs_of_nonneg (by linarith)
  rw [habs]
  rw [show |(0:ℝ)| = 0 by simp, show |(1:ℝ) - 1| = 0 by norm_num]
  rw [show |(1:ℝ)| = 1 by norm_num]
  rw [show ((0:ℝ)) / (1 + 1) = 0 by norm_num]
  rw [show (Real.sqrt 5 - 1) / 2 / (1 + 1) = (Real.sqrt 5 - 1) / 4 by ring]
  rw [max_eq_right (by linarith : (0:ℝ) ≤ (Real.sqrt 5 - 1) / 4),
    max_eq_right (by linarith : (0:ℝ) ≤ (Real.sqrt 5 - 1) / 4)]

/-- Explicit run of the concrete conforming problem with tolerance 1e-5 and
budget 1: the single entered iteration records the residual 1 of the
initial state, does not break, performs the updates, and the loop exits
with an exhausted budget. -/
theorem confRun_P0_eval :
    confRun (confP0 (1e-5) 1) confS00 =
      ⟨confUpdate (confP0 (1e-5) 1) confS00, [1], 0, 1, 1, false, 1⟩ := by
  have hnle : ¬ (confCriterion (confP0 (1e-5) 1) confS00 ≤
      (confP0 (1e-5) 1).epsAdmm) := by
    rw [eta0_eval]
    show ¬ ((1:ℝ) ≤ 1e-5)
    norm_num
  unfold confRun
  rw [show (confP0 (1e-5) 1).maxIter = 1 from rfl]
  rw [confLoopGo, if_neg hnle, confLoopGo]
  rw [eta0_eval]
  rfl

/-- C3 counterexample: on the concrete conforming problem the residual
recorded for iteration 0 is the criterion of the initial state (value 1),
not the criterion of the state produced by the updates of iteration 0
(value (sqrt 5 - 1) / 4), so the recorded residual does not measure the
post-update state of the same iteration. -/
theorem C3_counterexample :
    (confRun (confP0 (1e-5) 1) confS00).trace[0]? ≠
      some (confCriterion (confP0 (1e-5) 1)
        (confIter (confP0 (1e-5) 1) confS00 1)) := by
  rw [confRun_P0_eval]
  have h1 : confIter (confP0 (1e-5) 1) confS00 1 =
      confUpdate (confP0 (1e-5) 1) confS00 := by
    simp [confIter]
  rw [h1, eta1_eval]
  intro h
  have h2 : (1:ℝ) = (Real.sqrt 5 - 1) / 4 := by
    have := Option.some.inj h
    simpa using this
  have h3 := sqrt_five_lt_three
  linarith

/-- C3 amended: in each iteration of the conforming solver the stopping
criterion is evaluated as the first step, before that iteration performs
any update; the residual recorded at index t measures the iterate state
entering iteration t (the state produced by iteration t-1, index 0 being
the initial state), and convergence is declared on that pre-update state. -/
theorem C3_amended_criterion_first {K p : ℕ} (P : ConfParams K p)
    (s0 : ConfState K p) :
    (∀ j, j < (confRun P s0).trace.length →
      (confRun P s0).trace[j]? = some (confCriterion P (confIter P s0 j))) ∧
    ((confRun P s0).broke = true →
      (confRun P s0).state = confIter P s0 (confRun P s0).updates ∧
      confCriterion P ((confRun P s0).state) ≤ P.epsAdmm ∧
      (confRun P s0).lastEta = confCriterion P ((confRun P s0).state)) := by
  unfold confRun
  constructor
  · intro j hj
    have h := confLoopGo_trace_get P P.maxIter 0 s0 [] 0 j hj
    simpa using h
  · intro hb
    obtain ⟨h1, h2, h3, _⟩ := confLoopGo_broke_spec P P.maxIter 0 s0 [] 0 rfl hb
    refine ⟨by simpa using h1, ?_, h2⟩
    rw [← h2]
    exact h3

/-- Witness for the amended C3 at the concrete conforming problem: the
residual recorded at index 0 is the criterion of the initial state. -/
theorem C3_amended_witness :
    (confRun (confP0 (1e-5) 1) confS00).trace[0]? =
      some (confCriterion (confP0 (1e-5) 1)
        (confIter (confP0 (1e-5) 1) confS00 0)) :=
  (C3_amended_criterion_first (confP0 (1e-5) 1) confS00).1 0
    (by rw [confRun_P0_eval]; norm_num)

theorem confSym_zero_start {K p : ℕ} :
    ConfSym (⟨fun _ => 0, fun _ => 0, fun _ => 0⟩ : ConfState K p) :=
  ⟨fun _ => Matrix.transpose_zero, fun _ => Matrix.transpose_zero,
    fun _ => Matrix.transpose_zero⟩

/-- With a negative tolerance the nonnegative residual never satisfies the
break condition, so any conforming call with an all-zero start exhausts its
budget of at least one iteration, returns normally, and reports max
iterations reached with traces of length maxIter - 1 when tracing. -/
theorem ADMM_MGL_neg_eps_proj {K p : ℕ} (S : Fin K → Matrix (Fin p) (Fin p) ℝ)
    (mi : ℕ) (hmi : 1 ≤ mi) (measure : Bool) (eig : EighOracle) :
    (ADMM_MGL S 1 1 .GGL (fun _ => 0) .none .none NSamples.none (-1) measure
        mi 1 eig).map
      (fun pr => (pr.2.status, pr.2.kkt.map List.length,
        pr.2.runtime.map List.length)) =
      .ok (.maxIterationsReached,
        if measure then some (mi - 1) else Option.none,
        if measure then some (mi - 1) else Option.none) := by
  have hpre : confPreCheck K 1 1 1 NSamples.none = .ok (fun _ => (1:ℝ)) := by
    unfold confPreCheck nkOf
    rw [if_neg (by norm_num), if_neg (by norm_num)]
  rw [ADMM_MGL_ok_dispatch hpre]
  set P : ConfParams K p := ⟨S, 1, 1, .GGL, fun _ => (1:ℝ), 1, -1, mi, eig⟩
    with hP
  set s0 : ConfState K p := ⟨fun _ => 0, fun _ => 0, fun _ => 0⟩ with hs0
  have hnb : (confLoopGo P mi 0 s0 [] 0).broke = false := by
    rw [Bool.eq_false_iff]
    intro hb
    obtain ⟨n, _, hle⟩ := (confLoopGo_broke_iff P mi 0 s0 [] 0).mp hb
    have h0 := confCriterion_nonneg P (confIter P s0 n)
    have heps : P.epsAdmm = (-1 : ℝ) := rfl
    rw [heps] at hle
    linarith
  obtain ⟨ht1, _ht2, ht3, ht4, _ht5, _ht6, _ht7, ht8⟩ :=
    confLoopGo_nobreak_spec P mi 0 s0 [] 0 rfl hnb
  obtain ⟨_, hlast⟩ := ht8 hmi
  have hsym : ConfSym (confLoopGo P mi 0 s0 [] 0).state :=
    confLoopGo_state_sym P mi 0 s0 [] 0 confSym_zero_start
  have hrun : confRun P ⟨fun _ => 0, Option.getD Option.none (fun _ => 0),
      Option.getD Option.none (fun _ => 0)⟩ = confLoopGo P mi 0 s0 [] 0 := rfl
  have hOmS : ∀ k, SymmWithin ((confLoopGo P mi 0 s0 [] 0).state.Om k) assertTol :=
    fun k => symmWithin_of_transpose_eq (hsym.1 k) (by norm_num [assertTol])
  have hThS : ∀ k, SymmWithin ((confLoopGo P mi 0 s0 [] 0).state.Th k) assertTol :=
    fun k => symmWithin_of_transpose_eq (hsym.2.1 k) (by norm_num [assertTol])
  rw [ADMM_MGL_run, hrun, ADMM_MGL_post_ok hOmS hThS]
  unfold infoOf
  cases measure with
  | false =>
      simp only [Bool.false_eq_true, if_false, Except.map]
      unfold statusOf
      rw [if_pos (show P.epsAdmm < (confLoopGo P mi 0 s0 [] 0).lastEta from hlast)]
      simp
  | true =>
      simp only [if_true, Except.map]
      unfold statusOf
      rw [if_pos (show P.epsAdmm < (confLoopGo P mi 0 s0 [] 0).lastEta from hlast)]
      have hkl : ((confLoopGo P mi 0 s0 [] 0).trace.drop 1).length = mi - 1 := by
        rw [List.length_drop, ht1]
        omega
      have hrl : (List.replicate (confLoopGo P mi 0 s0 [] 0).iterT (0:ℝ)).length
          = mi - 1 := by
        rw [List.length_replicate, ht4]
        omega
      simp [hkl, hrl]
      omega

theorem confRun_P0neg_counts :
    (confRun (confP0 (-1) 2) confS00).entered = 2 ∧
    (confRun (confP0 (-1) 2) confS00).updates = 2 := by
  have hnb : (confLoopGo (confP0 (-1) 2) 2 0 confS00 [] 0).broke = false := by
    rw [Bool.eq_false_iff]
    intro hb
    obtain ⟨n, _, hle⟩ := (confLoopGo_broke_iff (confP0 (-1) 2) 2 0 confS00 [] 0).mp hb
    have h0 := confCriterion_nonneg (confP0 (-1) 2) (confIter (confP0 (-1) 2) confS00 n)
    have heps : (confP0 (-1) 2).epsAdmm = (-1 : ℝ) := rfl
    rw [heps] at hle
    linarith
  obtain ⟨_, h2, h3, _, _, _, _, _⟩ :=
    confLoopGo_nobreak_spec (confP0 (-1) 2) 2 0 confS00 [] 0 rfl hnb
  constructor
  · show (confLoopGo (confP0 (-1) 2) 2 0 confS00 [] 0).entered = 2
    rw [h2]
  · show (confLoopGo (confP0 (-1) 2) 2 0 confS00 [] 0).updates = 2
    rw [h3]

/-- C9 counterexample: a conforming call with tracing enabled, budget
max_iter = 2 and a tolerance no residual can meet returns the status max
iterations reached with a residual trace and a wall-time trace of one entry
each, although both entered iterations ran and performed their updates: the
sequences are not truncated to the number of iterations actually run. -/
theorem C9_counterexample :
    (ADMM_MGL (K := 1) (p := 1) (fun _ => 0) 1 1 .GGL (fun _ => 0)
        Option.none Option.none NSamples.none (-1) true 2 1 eigDiag).map
      (fun pr => (pr.2.status, pr.2.kkt.map List.length,
        pr.2.runtime.map List.length)) =
      .ok (.maxIterationsReached, some 1, some 1) ∧
    (confRun (confP0 (-1) 2) confS00).entered = 2 ∧
    (confRun (confP0 (-1) 2) confS00).updates = 2 ∧
    (1 : ℕ) ≠ 2 := by
  refine ⟨?_, confRun_P0neg_counts.1, confRun_P0neg_counts.2, by omega⟩
  have h := ADMM_MGL_neg_eps_proj (K := 1) (p := 1) (fun _ => 0) 2 (by omega)
    true eigDiag
  simpa using h

/-- C6 counterexample: a covariance input that is asymmetric far beyond the
tolerance passes the precondition phase of the conforming solver unnoticed;
the call runs its ADMM iteration and returns normally with the status max
iterations reached instead of reporting a precondition violation before the
loop. -/
theorem C6_counterexample :
    (ADMM_MGL (K := 1) (p := 2) (fun _ => Matrix.of ![![0, 1], ![0, 0]]) 1 1
        .GGL (fun _ => 0) Option.none Option.none NSamples.none (-1) false 1 1
        eigDiag).map
      (fun pr => (pr.2.status, pr.2.kkt.map List.length,
        pr.2.runtime.map List.length)) =
      .ok (.maxIterationsReached, Option.none, Option.none) ∧
    ¬ SymmWithin (Matrix.of ![![(0:ℝ), 1], ![0, 0]]) assertTol := by
  constructor
  · have h := ADMM_MGL_neg_eps_proj (K := 1) (p := 2)
      (fun _ => Matrix.of ![![0, 1], ![0, 0]]) 1 (le_refl 1) false eigDiag
    simpa using h
  · intro h
    have h01 := h 0 1
    have he1 : (Matrix.of ![![(0:ℝ), 1], ![0, 0]]) 0 1 = 1 := rfl
    have he2 : (Matrix.of ![![(0:ℝ), 1], ![0, 0]]) 1 0 = 0 := rfl
    rw [he1, he2] at h01
    norm_num [assertTol] at h01

/-- C6 amended: the precondition phases of both solvers reject non-positive
regularization weights, a non-positive rho, an invalid penalty selector and
a malformed group index map immediately, before any iteration; they accept
every covariance input of the right shape without inspecting its entries,
so an asymmetric covariance matrix is not a checked precondition (the
conforming precondition phase does not even receive S). -/
theorem C6_amended_prechecks :
    (∀ (K : ℕ) (lambda1 lambda2 rho : ℝ) (ns : NSamples) (nk : Fin K → ℝ),
        0 < min lambda1 lambda2 → 0 < rho → nkOf K ns = .ok nk →
        confPreCheck K lambda1 lambda2 rho ns = .ok nk) ∧
    (∀ (K : ℕ) (lambda1 lambda2 rho : ℝ) (ns : NSamples),
        min lambda1 lambda2 ≤ 0 →
        confPreCheck K lambda1 lambda2 rho ns =
          .error "assert min(lambda1, lambda2) > 0") ∧
    (∀ (K : ℕ) (lambda1 lambda2 rho : ℝ) (ns : NSamples),
        0 < min lambda1 lambda2 → rho ≤ 0 →
        confPreCheck K lambda1 lambda2 rho ns = .error "assert rho > 0") ∧
    (∀ (K L : ℕ) (lambda1 : Lam1 K) (lambda2 rho : ℝ)
        (G : Fin 2 → Fin L → Fin K → ℤ) (pd : Fin K → ℕ),
        (∀ k, 0 < normLam1 lambda1 k) → 0 < lambda2 →
        check_G G pd = .ok () → 0 < rho →
        extPreCheck lambda1 lambda2 .GGL G pd rho = .ok (normLam1 lambda1)) ∧
    (∀ (K L : ℕ) (lambda1 : Lam1 K) (lambda2 rho : ℝ)
        (G : Fin 2 → Fin L → Fin K → ℤ) (pd : Fin K → ℕ) (msg : String),
        check_G G pd = .error msg →
        (∀ k, 0 < normLam1 lambda1 k) → 0 < lambda2 →
        extPreCheck lambda1 lambda2 .GGL G pd rho = .error msg) := by
  refine ⟨?_, ?_, ?_, ?_, ?_⟩
  · intro K lambda1 lambda2 rho ns nk hmin hrho hnk
    unfold confPreCheck
    rw [if_neg (not_not_intro hmin), if_neg (not_not_intro hrho), hnk]
  · intro K lambda1 lambda2 rho ns hmin
    unfold confPreCheck
    rw [if_pos (not_lt.mpr hmin)]
  · intro K lambda1 lambda2 rho ns hmin hrho
    unfold confPreCheck
    rw [if_neg (not_not_intro hmin), if_pos (not_lt.mpr hrho)]
  · intro K L lambda1 lambda2 rho G pd hl1 hl2 hG hrho
    unfold extPreCheck
    rw [if_neg (not_not_intro ⟨hl1, hl2⟩),
      if_neg (not_not_intro (rfl : (Reg.GGL : Reg) = .GGL)), hG,
      if_neg (not_not_intro hrho)]
  · intro K L lambda1 lambda2 rho G pd msg hG hl1 hl2
    unfold extPreCheck
    rw [if_neg (not_not_intro ⟨hl1, hl2⟩),
      if_neg (not_not_intro (rfl : (Reg.GGL : Reg) = .GGL)), hG]

/-- Witness for the amended C6: a positive weight pair and rho with default
n_samples pass the conforming precondition phase whatever the covariance
entries are. -/
theorem C6_amended_witness :
    confPreCheck 1 1 1 1 NSamples.none = .ok (fun _ => (1:ℝ)) :=
  C6_amended_prechecks.1 1 1 1 1 NSamples.none (fun _ => 1)
    (by norm_num) (by norm_num) rfl

/-- C7: a scalar lambda1 supplied to the non-conforming solver is
normalized to the constant length-K vector before the positivity check and
the solve, so the scalar and the constant vector produce identical calls. -/
theorem C7_scalar_lambda1_normalized {K L : ℕ} {pd : Fin K → ℕ}
    (S : GDict K pd) (c : ℝ) (lambda2 : ℝ) (reg : Reg) (Omega0 : GDict K pd)
    (G : Fin 2 → Fin L → Fin K → ℤ) (epsAdmm : ℝ) (measure : Bool)
    (maxIter : ℕ) (rho : ℝ) (eig : EighOracle) :
    ext_ADMM_MGL S (Lam1.scalar c) lambda2 reg Omega0 G epsAdmm measure
        maxIter rho eig =
      ext_ADMM_MGL S (Lam1.vec (fun _ => c)) lambda2 reg Omega0 G epsAdmm
        measure maxIter rho eig ∧
    normLam1 (Lam1.scalar (K := K) c) = (fun _ => c) ∧
    extPreCheck (Lam1.scalar (K := K) c) lambda2 reg G pd rho =
      extPreCheck (Lam1.vec (fun _ => c)) lambda2 reg G pd rho :=
  ⟨rfl, rfl, rfl⟩

/-- C8: the n_samples dispatch of ADMM_MGL builds all-ones weights for
None and constant weights for an integer, but its array branch executes
assert len(nk) == K with the local variable nk still unassigned, so a
length-K array of per-instance sample sizes makes the call fail before the
iteration loop instead of being accepted. -/
theorem C8_n_samples_dispatch (K : ℕ) (n : ℕ) (v : List ℝ) :
    nkOf K .none = .ok (fun _ => 1) ∧
    nkOf K (.int n) = .ok (fun _ => (n : ℝ)) ∧
    nkOf K (.array v) =
      .error "UnboundLocalError: local variable nk referenced before assignment" :=
  ⟨rfl, rfl, rfl⟩

theorem setEntrySym_symm {p : ℕ} {M : Matrix (Fin p) (Fin p) ℝ}
    (hM : Mᵀ = M) (a b : ℤ) (v : ℝ) :
    (setEntrySym M a b v)ᵀ = setEntrySym M a b v := by
  ext i j
  simp only [Matrix.transpose_apply, setEntrySym, setEntry]
  by_cases hA : ((i : ℤ) = a % (p : ℤ) ∧ (j : ℤ) = b % (p : ℤ))
  · rw [if_pos ⟨hA.2, hA.1⟩]
    by_cases hB : ((i : ℤ) = b % (p : ℤ) ∧ (j : ℤ) = a % (p : ℤ))
    · rw [if_pos hB]
    · rw [if_neg hB, if_pos hA]
  · rw [if_neg (fun hc => hA ⟨hc.2, hc.1⟩)]
    by_cases hB : ((i : ℤ) = b % (p : ℤ) ∧ (j : ℤ) = a % (p : ℤ))
    · rw [if_pos ⟨hB.2, hB.1⟩, if_pos hB]
    · rw [if_neg (fun hc => hB ⟨hc.2, hc.1⟩), if_neg hB, if_neg hA]
      exact congrFun (congrFun hM i) j

theorem groupStep_symm {K L : ℕ} {pd : Fin K → ℕ} (X : GDict K pd)
    (G : Fin 2 → Fin L → Fin K → ℤ) (l2 : ℝ) {acc : GDict K pd}
    (hacc : ∀ k, (acc k)ᵀ = acc k) (l : Fin L) :
    ∀ k, ((groupStep X G l2 acc l) k)ᵀ = groupStep X G l2 acc l k := by
  intro k
  unfold groupStep
  by_cases h : G 0 l k = -1
  · rw [dif_pos h]
    exact hacc k
  · rw [dif_neg h]
    exact setEntrySym_symm (hacc k) _ _ _

theorem prox_2norm_G_core_symm {K L : ℕ} {pd : Fin K → ℕ} {X : GDict K pd}
    (G : Fin 2 → Fin L → Fin K → ℤ) (l2 : ℝ)
    (hX : ∀ k, (X k)ᵀ = X k) :
    ∀ k, ((prox_2norm_G_core X G l2) k)ᵀ = prox_2norm_G_core X G l2 k := by
  unfold prox_2norm_G_core
  suffices h : ∀ (ls : List (Fin L)) (acc : GDict K pd),
      (∀ k, (acc k)ᵀ = acc k) →
      ∀ k, ((ls.foldl (groupStep X G l2) acc) k)ᵀ =
        (ls.foldl (groupStep X G l2) acc) k by
    exact h _ X hX
  intro ls
  induction ls with
  | nil => intro acc hacc; exact hacc
  | cons a ls ih =>
      intro acc hacc
      exact ih _ (fun k => groupStep_symm X G l2 hacc a k)

/-- When its two assertions hold, prox_2norm_G returns its group loop. -/
theorem prox_2norm_G_ok {K L : ℕ} {pd : Fin K → ℕ} {X : GDict K pd}
    (G : Fin 2 → Fin L → Fin K → ℤ) {l2 : ℝ} (hl2 : 0 < l2)
    (hX : ∀ k, (X k)ᵀ = X k) :
    prox_2norm_G X G l2 = .ok (prox_2norm_G_core X G l2) := by
  unfold prox_2norm_G
  rw [if_neg (not_not_intro hl2),
    if_neg (not_not_intro (fun k =>
      symmWithin_of_transpose_eq (hX k) (by norm_num [assertTol])))]

/-- Entrywise symmetry of all five components of a non-conforming iterate. -/
def ExtSym {K : ℕ} {pd : Fin K → ℕ} (s : ExtState K pd) : Prop :=
  (∀ k, (s.Om k)ᵀ = s.Om k) ∧ (∀ k, (s.Th k)ᵀ = s.Th k) ∧
    (∀ k, (s.La k)ᵀ = s.La k) ∧ (∀ k, (s.X0 k)ᵀ = s.X0 k) ∧
    (∀ k, (s.X1 k)ᵀ = s.X1 k)

/-- The Omega dictionary built by one iteration of ext_ADMM_MGL. -/
def extOm {K L : ℕ} {pd : Fin K → ℕ} (P : ExtParams K pd L)
    (s : ExtState K pd) : GDict K pd := fun k =>
  let W := s.Th k - s.X0 k - (1 / P.rho) • P.S k
  phiplus W (1 / P.rho) (P.eig (pd k) W).1 (P.eig (pd k) W).2

/-- The Theta dictionary built by one iteration of ext_ADMM_MGL. -/
def extTh {K L : ℕ} {pd : Fin K → ℕ} (P : ExtParams K pd L)
    (s : ExtState K pd) : GDict K pd := fun k =>
  prox_od_1norm ((0.5 : ℝ) • (extOm P s k + s.X0 k + s.La k - s.X1 k))
    (P.lambda1 k / (2 * P.rho))

/-- The gathered dictionary Z = Theta + X1 of one iteration of
ext_ADMM_MGL. -/
def extZ {K L : ℕ} {pd : Fin K → ℕ} (P : ExtParams K pd L)
    (s : ExtState K pd) : GDict K pd := fun k =>
  extTh P s k + s.X1 k

/-- The iteration body of ext_ADMM_MGL with the assertions of prox_2norm_G
stripped: the value extUpdate returns whenever the assertions pass. -/
def extUpdateP {K L : ℕ} {pd : Fin K → ℕ} (P : ExtParams K pd L)
    (s : ExtState K pd) : ExtState K pd :=
  let La := prox_2norm_G_core (extZ P s) P.G (P.lambda2 / P.rho)
  ⟨extOm P s, extTh P s, La,
    fun k => s.X0 k + extOm P s k - extTh P s k,
    fun k => s.X1 k + extTh P s k - La k⟩

/-- The stopping criterion of ext_ADMM_MGL with the assertions of
prox_2norm_G stripped: the value extCriterion returns whenever the
assertions pass. -/
def extCriterionP {K L : ℕ} {pd : Fin K → ℕ} (P : ExtParams K pd L)
    (s : ExtState K pd) : ℝ :=
  let term1 : Fin K → ℝ := fun k =>
    let Ak := s.Om k - P.S k - s.X0 k
    frob (s.Om k - phiplus Ak 1 (P.eig (pd k) Ak).1 (P.eig (pd k) Ak).2)
      / (1 + frob (s.Om k))
  let term2 : Fin K → ℝ := fun k =>
    frob (s.Th k - prox_od_1norm (s.Th k + s.X0 k - s.X1 k) (P.lambda1 k))
      / (1 + frob (s.Th k))
  let V2 := prox_2norm_G_core (fun k => s.La k + s.X1 k) P.G P.lambda2
  let term4 : Fin K → ℝ := fun k =>
    frob (s.Om k - s.Th k) / (1 + frob (s.Th k))
  let term5 : Fin K → ℝ := fun k =>
    frob (s.La k - s.Th k) / (1 + frob (s.Th k))
  max (vecNorm term1) (max (vecNorm term2)
    (max (vecNorm (fun k => frob (V2 k - s.La k) / (1 + frob (s.La k))))
      (max (vecNorm term4) (vecNorm term5))))

theorem extCriterionP_nonneg {K L : ℕ} {pd : Fin K → ℕ}
    (P : ExtParams K pd L) (s : ExtState K pd) :
    0 ≤ extCriterionP P s :=
  le_trans (vecNorm_nonneg _) (le_max_left _ _)

theorem extOm_symm {K L : ℕ} {pd : Fin K → ℕ} (P : ExtParams K pd L)
    (s : ExtState K pd) : ∀ k, ((extOm P s) k)ᵀ = extOm P s k := by
  intro k
  show (phiplus (s.Th k - s.X0 k - (1 / P.rho) • P.S k) (1 / P.rho)
      (P.eig (pd k) (s.Th k - s.X0 k - (1 / P.rho) • P.S k)).1
      (P.eig (pd k) (s.Th k - s.X0 k - (1 / P.rho) • P.S k)).2)ᵀ = _
  exact phiplus_transpose _ _ _ _

theorem extTh_symm {K L : ℕ} {pd : Fin K → ℕ} (P : ExtParams K pd L)
    {s : ExtState K pd} (hs : ExtSym s) :
    ∀ k, ((extTh P s) k)ᵀ = extTh P s k := by
  intro k
  refine prox_od_1norm_symm ?_ _
  rw [Matrix.transpose_smul, Matrix.transpose_sub, Matrix.transpose_add,
    Matrix.transpose_add, extOm_symm P s k, hs.2.2.2.1 k, hs.2.2.1 k,
    hs.2.2.2.2 k]

theorem extZ_symm {K L : ℕ} {pd : Fin K → ℕ} (P : ExtParams K pd L)
    {s : ExtState K pd} (hs : ExtSym s) :
    ∀ k, ((extZ P s) k)ᵀ = extZ P s k := by
  intro k
  unfold extZ
  rw [Matrix.transpose_add, extTh_symm P hs k, hs.2.2.2.2 k]

theorem extUpdateP_symm {K L : ℕ} {pd : Fin K → ℕ} (P : ExtParams K pd L)
    {s : ExtState K pd} (hs : ExtSym s) : ExtSym (extUpdateP P s) := by
  have hLa : ∀ k, ((prox_2norm_G_core (extZ P s) P.G (P.lambda2 / P.rho)) k)ᵀ =
      prox_2norm_G_core (extZ P s) P.G (P.lambda2 / P.rho) k :=
    prox_2norm_G_core_symm P.G _ (extZ_symm P hs)
  refine ⟨extOm_symm P s, extTh_symm P hs, hLa, fun k => ?_, fun k => ?_⟩
  · show (s.X0 k + extOm P s k - extTh P s k)ᵀ = _
    rw [Matrix.transpose_sub, Matrix.transpose_add, hs.2.2.2.1 k,
      extOm_symm P s k, extTh_symm P hs k]
    rfl
  · show (s.X1 k + extTh P s k -
        prox_2norm_G_core (extZ P s) P.G (P.lambda2 / P.rho) k)ᵀ = _
    rw [Matrix.transpose_sub, Matrix.transpose_add, hs.2.2.2.2 k,
      extTh_symm P hs k, hLa k]
    rfl

/-- When the regularization weights are positive and the iterate is
symmetric, the iteration body of ext_ADMM_MGL passes the assertions of
prox_2norm_G and returns its assertion-free value. -/
theorem extUpdate_eq {K L : ℕ} {pd : Fin K → ℕ} (P : ExtParams K pd L)
    {s : ExtState K pd} (hl2 : 0 < P.lambda2) (hrho : 0 < P.rho)
    (hs : ExtSym s) :
    extUpdate P s = .ok (extUpdateP P s) := by
  show (match prox_2norm_G (extZ P s) P.G (P.lambda2 / P.rho) with
    | Except.error e => Except.error e
    | Except.ok La =>
        Except.ok (⟨extOm P s, extTh P s, La,
          fun k => s.X0 k + extOm P s k - extTh P s k,
          fun k => s.X1 k + extTh P s k - La k⟩ : ExtState K pd)) = _
  rw [prox_2norm_G_ok P.G (div_pos hl2 hrho) (extZ_symm P hs)]
  rfl

/-- When lambda2 is positive and the iterate is symmetric, the stopping
criterion of ext_ADMM_MGL passes the assertions of prox_2norm_G and
returns its assertion-free value. -/
theorem extCriterion_eq {K L : ℕ} {pd : Fin K → ℕ} (P : ExtParams K pd L)
    {s : ExtState K pd} (hl2 : 0 < P.lambda2) (hs : ExtSym s) :
    extCriterion P s = .ok (extCriterionP P s) := by
  have hV : ∀ k, ((fun k => s.La k + s.X1 k) k)ᵀ =
      (fun k => s.La k + s.X1 k) k := by
    intro k
    show (s.La k + s.X1 k)ᵀ = _
    rw [Matrix.transpose_add, hs.2.2.1 k, hs.2.2.2.2 k]
  show (match prox_2norm_G (fun k => s.La k + s.X1 k) P.G P.lambda2 with
    | Except.error e => Except.error e
    | Except.ok V2 =>
        Except.ok (max (vecNorm (fun k =>
            frob (s.Om k - phiplus (s.Om k - P.S k - s.X0 k) 1
                (P.eig (pd k) (s.Om k - P.S k - s.X0 k)).1
                (P.eig (pd k) (s.Om k - P.S k - s.X0 k)).2)
              / (1 + frob (s.Om k))))
          (max (vecNorm (fun k =>
              frob (s.Th k - prox_od_1norm (s.Th k + s.X0 k - s.X1 k)
                  (P.lambda1 k)) / (1 + frob (s.Th k))))
            (max (vecNorm (fun k => frob (V2 k - s.La k) / (1 + frob (s.La k))))
              (max (vecNorm (fun k =>
                  frob (s.Om k - s.Th k) / (1 + frob (s.Th k))))
                (vecNorm (fun k =>
                  frob (s.La k - s.Th k) / (1 + frob (s.Th k))))))))) = _
  rw [prox_2norm_G_ok P.G hl2 hV]
  rfl

/-- n-fold application of the assertion-free iteration body of the
non-conforming solver. -/
def extIterP {K L : ℕ} {pd : Fin K → ℕ} (P : ExtParams K pd L)
    (s : ExtState K pd) (n : ℕ) : ExtState K pd :=
  (extUpdateP P)^[n] s

theorem extIterP_symm {K L : ℕ} {pd : Fin K → ℕ} (P : ExtParams K pd L)
    {s : ExtState K pd} (hs : ExtSym s) (n : ℕ) : ExtSym (extIterP P s n) := by
  induction n with
  | zero => exact hs
  | succ n ih =>
      rw [extIterP, Function.iterate_succ_apply']
      exact extUpdateP_symm P ih

/-- Under positive weights and a symmetric start, the loop of ext_ADMM_MGL
never hits an assertion: it returns an exit record whose state is
symmetric, with the same counter bookkeeping as the conforming loop and
with the break exit characterized by the tolerance test on the iterates. -/
theorem extLoopGo_spec {K L : ℕ} {pd : Fin K → ℕ} (P : ExtParams K pd L)
    (hl2 : 0 < P.lambda2) (hrho : 0 < P.rho) :
    ∀ (fuel t : ℕ) (s : ExtState K pd) (acc : List ℝ) (last : ℝ),
      acc.length = t → ExtSym s →
      ∃ e : ExtExit K pd, extLoopGo P fuel t s acc last = .ok e ∧
        ExtSym e.state ∧
        (e.broke = true →
          e.lastEta ≤ P.epsAdmm ∧ e.trace.length = e.updates + 1 ∧
          e.entered = e.updates + 1 ∧ e.iterT = e.updates ∧ t ≤ e.updates) ∧
        (e.broke = false →
          e.trace.length = t + fuel ∧ e.entered = t + fuel ∧
          e.updates = t + fuel ∧ e.iterT = t + fuel - 1 ∧
          (1 ≤ fuel → P.epsAdmm < e.lastEta)) ∧
        (e.broke = true ↔
          ∃ n < fuel, extCriterionP P (extIterP P s n) ≤ P.epsAdmm) ∧
        (fuel = 0 → e.broke = false ∧ e.lastEta = last) := by
  intro fuel
  induction fuel with
  | zero =>
      intro t s acc last hlen hs
      refine ⟨⟨s, acc, t - 1, acc.length, acc.length, false, last⟩, rfl, hs,
        ?_, ?_, ?_, ?_⟩
      · intro h
        simp at h
      · intro _
        refine ⟨by simpa using hlen, by simpa using hlen, by simpa using hlen,
          by simp, by omega⟩
      · constructor
        · intro h
          simp at h
        · rintro ⟨n, hn, _⟩
          omega
      · intro _
        exact ⟨rfl, rfl⟩
  | succ fuel ih =>
      intro t s acc last hlen hs
      have hcr := extCriterion_eq P hl2 hs
      by_cases hbr : extCriterionP P s ≤ P.epsAdmm
      · refine ⟨⟨s, acc ++ [extCriterionP P s], t, acc.length + 1, acc.length,
          true, extCriterionP P s⟩, ?_, hs, ?_, ?_, ?_, ?_⟩
        · rw [extLoopGo, hcr]
          simp only [if_pos hbr]
        · intro _
          refine ⟨hbr, by simp, rfl, hlen.symm, ?_⟩
          show t ≤ acc.length
          omega
        · intro h
          simp at h
        · constructor
          · intro _
            exact ⟨0, by omega, by simpa [extIterP] using hbr⟩
          · intro _
            rfl
        · intro h
          exact absurd h (Nat.succ_ne_zero fuel)
      · have hup := extUpdate_eq P hl2 hrho hs
        have hlen2 : (acc ++ [extCriterionP P s]).length = t + 1 := by
          simp [hlen]
        obtain ⟨e, heq, hesym, hbrk, hnbr, hiff, hzero⟩ :=
          ih (t + 1) (extUpdateP P s) (acc ++ [extCriterionP P s])
            (extCriterionP P s) hlen2 (extUpdateP_symm P hs)
        have hred : extLoopGo P (fuel + 1) t s acc last =
            extLoopGo P fuel (t + 1) (extUpdateP P s)
              (acc ++ [extCriterionP P s]) (extCriterionP P s) := by
          rw [extLoopGo, hcr]
          simp only [if_neg hbr]
          rw [hup]
        have hiter : ∀ n, extIterP P (extUpdateP P s) n = extIterP P s (n + 1) := by
          intro n
          simp [extIterP, Function.iterate_succ_apply]
        refine ⟨e, by rw [hred]; exact heq, hesym, ?_, ?_, ?_, ?_⟩
        · intro hb
          obtain ⟨k1, k2, k3, k4, k5⟩ := hbrk hb
          exact ⟨k1, k2, k3, k4, by omega⟩
        · intro hb
          obtain ⟨k1, k2, k3, k4, k5⟩ := hnbr hb
          refine ⟨by omega, by omega, by omega, by omega, ?_⟩
          intro _
          rcases Nat.eq_zero_or_pos fuel with hf0 | hfpos
          · subst hf0
            obtain ⟨_, hle⟩ := hzero rfl
            rw [hle]
            exact lt_of_not_le hbr
          · exact k5 hfpos
        · rw [hiff]
          constructor
          · rintro ⟨n, hn, hle⟩
            rw [hiter] at hle
            exact ⟨n + 1, by omega, hle⟩
          · rintro ⟨n, hn, hle⟩
            cases n with
            | zero => exact absurd (by simpa [extIterP] using hle) hbr
            | succ m =>
                rw [← hiter] at hle
                exact ⟨m, by omega, hle⟩
        · intro h
          exact absurd h (Nat.succ_ne_zero fuel)

theorem infoOf_status (m : Bool) (e : ℝ) (b : Bool) (l : ℝ) (tr : List ℝ)
    (it : ℕ) : (infoOf m e b l tr it).status = statusOf e b l := by
  unfold infoOf
  cases m <;> rfl

/-- The status computation yields exactly optimal on the break exit and
exactly max iterations reached on the exhaustion exit. -/
theorem statusOf_spec {eps lastEta : ℝ} {b : Bool}
    (hb : b = true → lastEta ≤ eps) (hnb : b = false → eps < lastEta) :
    (statusOf eps b lastEta = .optimal ∨
      statusOf eps b lastEta = .maxIterationsReached) ∧
    (statusOf eps b lastEta = .optimal ↔ b = true) := by
  cases b with
  | false =>
      have h := hnb rfl
      unfold statusOf
      rw [if_pos h]
      refine ⟨Or.inr rfl, ?_⟩
      constructor
      · intro h2
        exact absurd h2 (by decide)
      · intro h2
        exact absurd h2 (by decide)
  | true =>
      have h := hb rfl
      unfold statusOf
      rw [if_neg (not_lt.mpr h), if_pos rfl]
      exact ⟨Or.inl rfl, ⟨fun _ => rfl, fun _ => rfl⟩⟩

theorem confPreCheck_ok {K : ℕ} {lambda1 lambda2 rho : ℝ} {ns : NSamples}
    {nk : Fin K → ℝ} (hmin : 0 < min lambda1 lambda2) (hrho : 0 < rho)
    (hnk : nkOf K ns = .ok nk) :
    confPreCheck K lambda1 lambda2 rho ns = .ok nk := by
  unfold confPreCheck
  rw [if_neg (not_not_intro hmin), if_neg (not_not_intro hrho), hnk]

theorem extPreCheck_ok {K L : ℕ} {lambda1 : Lam1 K} {lambda2 rho : ℝ}
    {G : Fin 2 → Fin L → Fin K → ℤ} {pd : Fin K → ℕ}
    (hl1 : ∀ k, 0 < normLam1 lambda1 k) (hl2 : 0 < lambda2)
    (hG : check_G G pd = .ok ()) (hrho : 0 < rho) :
    extPreCheck lambda1 lambda2 .GGL G pd rho = .ok (normLam1 lambda1) := by
  unfold extPreCheck
  rw [if_neg (not_not_intro ⟨hl1, hl2⟩),
    if_neg (not_not_intro (rfl : (Reg.GGL : Reg) = .GGL)), hG,
    if_neg (not_not_intro hrho)]

theorem ext_ADMM_MGL_ok_dispatch {K L : ℕ} {pd : Fin K → ℕ} {S : GDict K pd}
    {lambda1 : Lam1 K} {lambda2 : ℝ} {reg : Reg} {Omega0 : GDict K pd}
    {G : Fin 2 → Fin L → Fin K → ℤ} {epsAdmm : ℝ} {measure : Bool}
    {maxIter : ℕ} {rho : ℝ} {eig : EighOracle} {l1 : Fin K → ℝ}
    (hpre : extPreCheck lambda1 lambda2 reg G pd rho = .ok l1) :
    ext_ADMM_MGL S lambda1 lambda2 reg Omega0 G epsAdmm measure maxIter rho
        eig =
      ext_ADMM_run (⟨S, l1, lambda2, G, rho, epsAdmm, maxIter, eig⟩ :
          ExtParams K pd L)
        ⟨Omega0, Omega0, Omega0, fun _ => 0, fun _ => 0⟩ measure := by
  unfold ext_ADMM_MGL
  rw [hpre]

theorem ext_ADMM_post_ok {K L : ℕ} {pd : Fin K → ℕ} {P : ExtParams K pd L}
    {e : ExtExit K pd} {measure : Bool}
    (h1 : ∀ k, SymmWithin (e.state.Om k) assertTol)
    (h2 : ∀ k, SymmWithin (e.state.Th k) assertTol) :
    ext_ADMM_post P e measure =
      .ok (⟨e.state.Om, e.state.Th, e.state.X0, e.state.X1⟩,
        infoOf measure P.epsAdmm e.broke e.lastEta e.trace e.iterT) := by
  unfold ext_ADMM_post
  rw [if_neg (not_not_intro h1), if_neg (not_not_intro h2)]

/-- C4: a call to either solver with a budget of at least one iteration and
inputs satisfying the documented preconditions (positive weights and rho, a
well-formed n_samples argument and group map, symmetric starting matrices)
returns normally; the reported status is exactly optimal when some computed
residual within the budget reaches eps_admm and exactly max iterations
reached otherwise, and no other status value is ever returned. -/
theorem C4_status_contract :
    (∀ (K p : ℕ) (S : Fin K → Matrix (Fin p) (Fin p) ℝ)
        (lambda1 lambda2 : ℝ) (reg : Reg)
        (Omega0 : Fin K → Matrix (Fin p) (Fin p) ℝ)
        (Theta0 X0 : Option (Fin K → Matrix (Fin p) (Fin p) ℝ))
        (ns : NSamples) (nk : Fin K → ℝ) (epsAdmm : ℝ) (measure : Bool)
        (maxIter : ℕ) (rho : ℝ) (eig : EighOracle),
      1 ≤ maxIter → 0 < min lambda1 lambda2 → 0 < rho →
      nkOf K ns = .ok nk →
      (∀ k, (Omega0 k)ᵀ = Omega0 k) →
      (∀ k, ((Theta0.getD Omega0) k)ᵀ = (Theta0.getD Omega0) k) →
      (∀ k, ((X0.getD (fun _ => 0)) k)ᵀ = (X0.getD (fun _ => 0)) k) →
      ∃ sol info, ADMM_MGL S lambda1 lambda2 reg Omega0 Theta0 X0 ns epsAdmm
          measure maxIter rho eig = .ok (sol, info) ∧
        (info.status = .optimal ∨ info.status = .maxIterationsReached) ∧
        (info.status = .optimal ↔
          ∃ n < maxIter,
            confCriterion
              ⟨S, lambda1, lambda2, reg, nk, rho, epsAdmm, maxIter, eig⟩
              (confIter
                ⟨S, lambda1, lambda2, reg, nk, rho, epsAdmm, maxIter, eig⟩
                ⟨Omega0, Theta0.getD Omega0, X0.getD (fun _ => 0)⟩ n) ≤
              epsAdmm)) ∧
    (∀ (K L : ℕ) (pd : Fin K → ℕ) (S : GDict K pd) (lambda1 : Lam1 K)
        (lambda2 : ℝ) (Omega0 : GDict K pd) (G : Fin 2 → Fin L → Fin K → ℤ)
        (epsAdmm : ℝ) (measure : Bool) (maxIter : ℕ) (rho : ℝ)
        (eig : EighOracle),
      1 ≤ maxIter → (∀ k, 0 < normLam1 lambda1 k) → 0 < lambda2 →
      check_G G pd = .ok () → 0 < rho →
      (∀ k, (Omega0 k)ᵀ = Omega0 k) →
      ∃ sol info, ext_ADMM_MGL S lambda1 lambda2 .GGL Omega0 G epsAdmm
          measure maxIter rho eig = .ok (sol, info) ∧
        (info.status = .optimal ∨ info.status = .maxIterationsReached) ∧
        (info.status = .optimal ↔
          ∃ n < maxIter,
            extCriterionP
              (⟨S, normLam1 lambda1, lambda2, G, rho, epsAdmm, maxIter, eig⟩ :
                ExtParams K pd L)
              (extIterP
                (⟨S, normLam1 lambda1, lambda2, G, rho, epsAdmm, maxIter,
                  eig⟩ : ExtParams K pd L)
                ⟨Omega0, Omega0, Omega0, fun _ => 0, fun _ => 0⟩ n) ≤
              epsAdmm)) := by
  constructor
  · intro K p S lambda1 lambda2 reg Omega0 Theta0 X0 ns nk epsAdmm measure
      maxIter rho eig hmi hmin hrho hnk hOm0 hTh0 hX0
    set P : ConfParams K p :=
      ⟨S, lambda1, lambda2, reg, nk, rho, epsAdmm, maxIter, eig⟩ with hP
    set s0 : ConfState K p :=
      ⟨Omega0, Theta0.getD Omega0, X0.getD (fun _ => 0)⟩ with hs0
    have hsym0 : ConfSym s0 := ⟨hOm0, hTh0, hX0⟩
    have hsym : ConfSym (confLoopGo P maxIter 0 s0 [] 0).state :=
      confLoopGo_state_sym P maxIter 0 s0 [] 0 hsym0
    have hrun : confRun P s0 = confLoopGo P maxIter 0 s0 [] 0 := rfl
    have hOmS : ∀ k,
        SymmWithin ((confLoopGo P maxIter 0 s0 [] 0).state.Om k) assertTol :=
      fun k => symmWithin_of_transpose_eq (hsym.1 k) (by norm_num [assertTol])
    have hThS : ∀ k,
        SymmWithin ((confLoopGo P maxIter 0 s0 [] 0).state.Th k) assertTol :=
      fun k => symmWithin_of_transpose_eq (hsym.2.1 k) (by norm_num [assertTol])
    rw [ADMM_MGL_ok_dispatch (confPreCheck_ok hmin hrho hnk), ADMM_MGL_run,
      hrun, ADMM_MGL_post_ok hOmS hThS]
    refine ⟨_, _, rfl, ?_⟩
    rw [infoOf_status]
    have hbc : (confLoopGo P maxIter 0 s0 [] 0).broke = true →
        (confLoopGo P maxIter 0 s0 [] 0).lastEta ≤ P.epsAdmm := by
      intro hb
      exact (confLoopGo_broke_spec P maxIter 0 s0 [] 0 rfl hb).2.2.1
    have hnbc : (confLoopGo P maxIter 0 s0 [] 0).broke = false →
        P.epsAdmm < (confLoopGo P maxIter 0 s0 [] 0).lastEta := by
      intro hb
      exact ((confLoopGo_nobreak_spec P maxIter 0 s0 [] 0 rfl hb).2.2.2.2.2.2.2
        hmi).2
    obtain ⟨hdich, hopt⟩ := statusOf_spec hbc hnbc
    refine ⟨hdich, ?_⟩
    rw [hopt]
    exact confLoopGo_broke_iff P maxIter 0 s0 [] 0
  · intro K L pd S lambda1 lambda2 Omega0 G epsAdmm measure maxIter rho eig
      hmi hl1 hl2 hG hrho hOm0
    set P : ExtParams K pd L :=
      ⟨S, normLam1 lambda1, lambda2, G, rho, epsAdmm, maxIter, eig⟩ with hP
    set s0 : ExtState K pd :=
      ⟨Omega0, Omega0, Omega0, fun _ => 0, fun _ => 0⟩ with hs0
    have hsym0 : ExtSym s0 :=
      ⟨hOm0, hOm0, hOm0, fun _ => Matrix.transpose_zero,
        fun _ => Matrix.transpose_zero⟩
    obtain ⟨e, heq, hesym, hbrk, hnbr, hiff, _⟩ :=
      extLoopGo_spec P hl2 hrho maxIter 0 s0 [] 0 rfl hsym0
    have hOmS : ∀ k, SymmWithin (e.state.Om k) assertTol :=
      fun k => symmWithin_of_transpose_eq (hesym.1 k) (by norm_num [assertTol])
    have hThS : ∀ k, SymmWithin (e.state.Th k) assertTol :=
      fun k =>
        symmWithin_of_transpose_eq (hesym.2.1 k) (by norm_num [assertTol])
    have hrun2 : ext_ADMM_run P s0 measure = ext_ADMM_post P e measure := by
      unfold ext_ADMM_run
      rw [show P.maxIter = maxIter from rfl, heq]
    rw [ext_ADMM_MGL_ok_dispatch (extPreCheck_ok hl1 hl2 hG hrho), hrun2,
      ext_ADMM_post_ok hOmS hThS]
    refine ⟨_, _, rfl, ?_⟩
    rw [infoOf_status]
    have hbc : e.broke = true → e.lastEta ≤ P.epsAdmm := fun hb => (hbrk hb).1
    have hnbc : e.broke = false → P.epsAdmm < e.lastEta := fun hb =>
      (hnbr hb).2.2.2.2 hmi
    obtain ⟨hdich, hopt⟩ := statusOf_spec hbc hnbc
    refine ⟨hdich, ?_⟩
    rw [hopt]
    exact hiff

/-- Witness for C4 at the concrete conforming call with unit weights,
budget 1 and a negative tolerance. -/
theorem C4_status_contract_witness :
    ∃ sol info, ADMM_MGL (K := 1) (p := 1) (fun _ => 0) 1 1 .GGL (fun _ => 0)
        Option.none Option.none NSamples.none (-1) false 1 1 eigDiag =
        .ok (sol, info) ∧
      (info.status = .optimal ∨ info.status = .maxIterationsReached) ∧
      (info.status = .optimal ↔
        ∃ n < 1,
          confCriterion
            (⟨fun _ => 0, 1, 1, .GGL, fun _ => 1, 1, -1, 1, eigDiag⟩ :
              ConfParams 1 1)
            (confIter
              (⟨fun _ => 0, 1, 1, .GGL, fun _ => 1, 1, -1, 1, eigDiag⟩ :
                ConfParams 1 1)
              (⟨fun _ => 0, Option.getD Option.none (fun _ => 0),
                Option.getD Option.none (fun _ => 0)⟩ : ConfState 1 1) n) ≤
            (-1 : ℝ)) :=
  C4_status_contract.1 1 1 (fun _ => 0) 1 1 .GGL (fun _ => 0) Option.none
    Option.none NSamples.none (fun _ => 1) (-1) false 1 1 eigDiag (le_refl 1)
    (by norm_num) (by norm_num) rfl (fun _ => Matrix.transpose_zero)
    (fun _ => Matrix.transpose_zero) (fun _ => Matrix.transpose_zero)

/-- Counter bookkeeping of the non-conforming loop on any successful run,
independent of any numeric hypotheses. -/
theorem extLoopGo_shape {K L : ℕ} {pd : Fin K → ℕ} (P : ExtParams K pd L) :
    ∀ (fuel t : ℕ) (s : ExtState K pd) (acc : List ℝ) (last : ℝ)
      (e : ExtExit K pd),
      acc.length = t →
      extLoopGo P fuel t s acc last = .ok e →
      (e.broke = true →
        e.trace.length = e.updates + 1 ∧ e.iterT = e.updates ∧
        e.entered = e.updates + 1) ∧
      (e.broke = false →
        e.trace.length = t + fuel ∧ e.updates = t + fuel ∧
        e.iterT = t + fuel - 1 ∧ e.entered = t + fuel) := by
  intro fuel
  induction fuel with
  | zero =>
      intro t s acc last e hlen heq
      rw [extLoopGo] at heq
      have he : e = ⟨s, acc, t - 1, acc.length, acc.length, false, last⟩ :=
        (Except.ok.inj heq).symm
      subst he
      refine ⟨fun h => by simp at h, fun _ => ?_⟩
      exact ⟨by simpa using hlen, by simpa using hlen, by simp, by simpa using hlen⟩
  | succ fuel ih =>
      intro t s acc last e hlen heq
      rw [extLoopGo] at heq
      cases hc : extCriterion P s with
      | error msg => rw [hc] at heq; exact absurd heq (by simp)
      | ok eta =>
          rw [hc] at heq
          have heq2 : (if eta ≤ P.epsAdmm then
              (Except.ok (⟨s, acc ++ [eta], t, acc.length + 1, acc.length,
                true, eta⟩ : ExtExit K pd) : Except String (ExtExit K pd))
            else match extUpdate P s with
              | .error e => .error e
              | .ok s2 => extLoopGo P fuel (t + 1) s2 (acc ++ [eta]) eta) =
              .ok e := heq
          clear heq
          rename' heq2 => heq
          by_cases hbr : eta ≤ P.epsAdmm
          · rw [if_pos hbr] at heq
            have he : e = ⟨s, acc ++ [eta], t, acc.length + 1, acc.length,
                true, eta⟩ := (Except.ok.inj heq).symm
            subst he
            refine ⟨fun _ => ⟨by simp, hlen.symm, rfl⟩, fun h => by simp at h⟩
          · rw [if_neg hbr] at heq
            cases hu : extUpdate P s with
            | error msg => rw [hu] at heq; exact absurd heq (by simp)
            | ok s2 =>
                rw [hu] at heq
                have hlen2 : (acc ++ [eta]).length = t + 1 := by simp [hlen]
                obtain ⟨h1, h2⟩ := ih (t + 1) s2 (acc ++ [eta]) eta e hlen2 heq
                refine ⟨h1, fun hb => ?_⟩
                obtain ⟨k1, k2, k3, k4⟩ := h2 hb
                exact ⟨by omega, by omega, by omega, by omega⟩

/-- C9 amended: with tracing disabled the info bundle holds only the
status; with tracing enabled it holds the residual and wall-time slices,
whose lengths equal the number of completed update iterations when the
solver converged (status optimal) but equal max_iter - 1 when the budget
was exhausted, although max_iter iterations ran and updated in that case:
the exhausted outcome drops one entry from each sequence. -/
theorem C9_amended_trace_lengths :
    (∀ (K p : ℕ) (P : ConfParams K p) (s0 : ConfState K p),
      1 ≤ P.maxIter →
      ((infoOf false P.epsAdmm (confRun P s0).broke (confRun P s0).lastEta
          (confRun P s0).trace (confRun P s0).iterT).kkt = Option.none ∧
        (infoOf false P.epsAdmm (confRun P s0).broke (confRun P s0).lastEta
          (confRun P s0).trace (confRun P s0).iterT).runtime = Option.none) ∧
      ((confRun P s0).broke = true →
        (infoOf true P.epsAdmm (confRun P s0).broke (confRun P s0).lastEta
            (confRun P s0).trace (confRun P s0).iterT).kkt =
          some ((confRun P s0).trace.drop 1) ∧
        ((confRun P s0).trace.drop 1).length = (confRun P s0).updates ∧
        (infoOf true P.epsAdmm (confRun P s0).broke (confRun P s0).lastEta
            (confRun P s0).trace (confRun P s0).iterT).runtime =
          some (List.replicate (confRun P s0).iterT 0) ∧
        (confRun P s0).iterT = (confRun P s0).updates) ∧
      ((confRun P s0).broke = false →
        ((confRun P s0).trace.drop 1).length = P.maxIter - 1 ∧
        (confRun P s0).iterT = P.maxIter - 1 ∧
        (confRun P s0).updates = P.maxIter)) ∧
    (∀ (K L : ℕ) (pd : Fin K → ℕ) (P : ExtParams K pd L)
        (s0 : ExtState K pd) (e : ExtExit K pd),
      1 ≤ P.maxIter →
      extLoopGo P P.maxIter 0 s0 [] 0 = .ok e →
      (e.broke = true →
        (e.trace.drop 1).length = e.updates ∧ e.iterT = e.updates) ∧
      (e.broke = false →
        (e.trace.drop 1).length = P.maxIter - 1 ∧
        e.iterT = P.maxIter - 1 ∧ e.updates = P.maxIter)) := by
  constructor
  · intro K p P s0 hmi
    refine ⟨⟨rfl, rfl⟩, ?_, ?_⟩
    · intro hb
      obtain ⟨_, _, _, h4, _, h6, _⟩ :=
        confLoopGo_broke_spec P P.maxIter 0 s0 [] 0 rfl hb
      refine ⟨rfl, ?_, rfl, h6⟩
      rw [List.length_drop]
      show (confLoopGo P P.maxIter 0 s0 [] 0).trace.length - 1 =
        (confLoopGo P P.maxIter 0 s0 [] 0).updates
      omega
    · intro hb
      obtain ⟨h1, _, h3, h4, _, _, _, _⟩ :=
        confLoopGo_nobreak_spec P P.maxIter 0 s0 [] 0 rfl hb
      refine ⟨?_, ?_, ?_⟩
      · rw [List.length_drop]
        show (confLoopGo P P.maxIter 0 s0 [] 0).trace.length - 1 = _
        omega
      · show (confLoopGo P P.maxIter 0 s0 [] 0).iterT = _
        omega
      · show (confLoopGo P P.maxIter 0 s0 [] 0).updates = _
        omega
  · intro K L pd P s0 e hmi heq
    obtain ⟨h1, h2⟩ := extLoopGo_shape P P.maxIter 0 s0 [] 0 e rfl heq
    constructor
    · intro hb
      obtain ⟨k1, k2, _⟩ := h1 hb
      refine ⟨?_, k2⟩
      rw [List.length_drop]
      omega
    · intro hb
      obtain ⟨k1, k2, k3, _⟩ := h2 hb
      refine ⟨?_, by omega, by omega⟩
      rw [List.length_drop]
      omega

/-- Witness for the amended C9 at the concrete conforming problem with
budget 2 and a tolerance no residual can meet. -/
theorem C9_amended_witness :
    ((confRun (confP0 (-1) 2) confS00).trace.drop 1).length =
      (confP0 (-1) 2).maxIter - 1 ∧
    (confRun (confP0 (-1) 2) confS00).iterT = (confP0 (-1) 2).maxIter - 1 ∧
    (confRun (confP0 (-1) 2) confS00).updates = (confP0 (-1) 2).maxIter := by
  have hnb : (confRun (confP0 (-1) 2) confS00).broke = false := by
    rw [Bool.eq_false_iff]
    intro hb
    obtain ⟨n, _, hle⟩ :=
      (confLoopGo_broke_iff (confP0 (-1) 2) 2 0 confS00 [] 0).mp hb
    have h0 := confCriterion_nonneg (confP0 (-1) 2)
      (confIter (confP0 (-1) 2) confS00 n)
    have heps : (confP0 (-1) 2).epsAdmm = (-1 : ℝ) := rfl
    rw [heps] at hle
    linarith
  exact (C9_amended_trace_lengths.1 1 1 (confP0 (-1) 2) confS00
    (by norm_num [confP0])).2.2 hnb

theorem getEntry_congr_mod {p : ℕ} (M : Matrix (Fin p) (Fin p) ℝ)
    {a b b2 : ℤ} (h : b % (p : ℤ) = b2 % (p : ℤ)) :
    getEntry M a b = getEntry M a b2 := by
  unfold getEntry
  by_cases hp : 0 < p
  · rw [dif_pos hp, dif_pos hp]
    simp only [h]
  · rw [dif_neg hp, dif_neg hp]

theorem setEntry_congr_mod {p : ℕ} (M : Matrix (Fin p) (Fin p) ℝ)
    {a b b2 : ℤ} (v : ℝ) (h : b % (p : ℤ) = b2 % (p : ℤ)) :
    setEntry M a b v = setEntry M a b2 v := by
  funext x y
  unfold setEntry
  rw [h]

theorem neg_one_emod_cast (p : ℕ) :
    (-1 : ℤ) % (p : ℤ) = ((p : ℤ) - 1) % (p : ℤ) := by
  rw [show ((p : ℤ) - 1) = -1 + (p : ℤ) by ring, Int.add_emod_self]

theorem neg_one_emod_toNat {p : ℕ} (hp : 0 < p) :
    ((-1 : ℤ) % (p : ℤ)).toNat = p - 1 := by
  rw [neg_one_emod_cast, Int.emod_eq_of_lt (by omega) (by omega)]
  omega

theorem groupStep_absent {K L : ℕ} {pd : Fin K → ℕ} (X : GDict K pd)
    (G : Fin 2 → Fin L → Fin K → ℤ) (l2 : ℝ) (acc : GDict K pd) (l : Fin L)
    {k : Fin K} (h : G 0 l k = -1) :
    groupStep X G l2 acc l k = acc k := by
  unfold groupStep
  rw [dif_pos h]

theorem prox_2norm_G_core_absent {K L : ℕ} {pd : Fin K → ℕ} (X : GDict K pd)
    (G : Fin 2 → Fin L → Fin K → ℤ) (l2 : ℝ) {k : Fin K}
    (h : ∀ l, G 0 l k = -1) :
    prox_2norm_G_core X G l2 k = X k := by
  unfold prox_2norm_G_core
  suffices hh : ∀ (ls : List (Fin L)) (acc : GDict K pd),
      (ls.foldl (groupStep X G l2) acc) k = acc k by
    exact hh _ X
  intro ls
  induction ls with
  | nil => intro acc; rfl
  | cons a ls ih =>
      intro acc
      rw [List.foldl_cons, ih]
      exact groupStep_absent X G l2 acc a (h a)

theorem shrunkVal_eq_of_absent {K L : ℕ} {pd : Fin K → ℕ}
    {X2 X : GDict K pd} {G : Fin 2 → Fin L → Fin K → ℤ} {k0 : Fin K}
    (habs : ∀ l, G 0 l k0 = -1) (hagree : ∀ j, j ≠ k0 → X2 j = X j)
    (l2 : ℝ) (l : Fin L) :
    shrunkVal X2 G l2 l = shrunkVal X G l2 l := by
  unfold shrunkVal
  have hfun : (fun kk : {k // k ∈ presentSet G l} => gatherVal X2 G l kk.1) =
      (fun kk => gatherVal X G l kk.1) := by
    funext kk
    have hne : kk.1 ≠ k0 := by
      intro he
      have hmem := kk.2
      simp only [presentSet, Finset.mem_filter, Finset.mem_univ,
        true_and] at hmem
      rw [he] at hmem
      exact hmem (habs l)
    unfold gatherVal
    rw [hagree _ hne]
  rw [hfun]

theorem prox_2norm_G_core_indep {K L : ℕ} {pd : Fin K → ℕ}
    {X2 X : GDict K pd} {G : Fin 2 → Fin L → Fin K → ℤ} {k0 : Fin K}
    (habs : ∀ l, G 0 l k0 = -1) (hagree : ∀ j, j ≠ k0 → X2 j = X j)
    (l2 : ℝ) :
    ∀ j, j ≠ k0 → prox_2norm_G_core X2 G l2 j = prox_2norm_G_core X G l2 j := by
  unfold prox_2norm_G_core
  suffices hh : ∀ (ls : List (Fin L)) (acc2 acc : GDict K pd),
      (∀ j, j ≠ k0 → acc2 j = acc j) →
      ∀ j, j ≠ k0 →
        (ls.foldl (groupStep X2 G l2) acc2) j =
          (ls.foldl (groupStep X G l2) acc) j by
    exact fun j hj => hh _ X2 X hagree j hj
  intro ls
  induction ls with
  | nil => intro acc2 acc hacc; exact hacc
  | cons a ls ih =>
      intro acc2 acc hacc
      rw [List.foldl_cons, List.foldl_cons]
      apply ih
      intro j hj
      unfold groupStep
      by_cases h : G 0 a j = -1
      · rw [dif_pos h, dif_pos h]
        exact hacc j hj
      · rw [dif_neg h, dif_neg h, hacc j hj,
          shrunkVal_eq_of_absent habs hagree l2 a]

theorem foldl_groupStep_id {K L : ℕ} {pd : Fin K → ℕ} (X : GDict K pd)
    (G : Fin 2 → Fin L → Fin K → ℤ) (l2 : ℝ) (ls : List (Fin L)) :
    ∀ (acc : GDict K pd), (∀ l, l ∈ ls → ∀ k, G 0 l k = -1) →
    ls.foldl (groupStep X G l2) acc = acc := by
  induction ls with
  | nil => intro acc _; rfl
  | cons a ls ih =>
      intro acc hid
      rw [List.foldl_cons]
      have hstep : groupStep X G l2 acc a = acc := by
        funext k
        exact groupStep_absent X G l2 acc a (hid a (List.mem_cons_self a ls) k)
      rw [hstep]
      exact ih acc (fun l hl k => hid l (List.mem_cons_of_mem a hl) k)

theorem prox_2norm_G_core_single_group {K L : ℕ} {pd : Fin K → ℕ}
    (X : GDict K pd) (G : Fin 2 → Fin L → Fin K → ℤ) (l2 : ℝ) (l0 : Fin L)
    (hothers : ∀ l k, l ≠ l0 → G 0 l k = -1) :
    prox_2norm_G_core X G l2 = groupStep X G l2 X l0 := by
  unfold prox_2norm_G_core
  obtain ⟨ls1, ls2, hsplit⟩ := List.append_of_mem (List.mem_finRange l0)
  have hnd : (ls1 ++ l0 :: ls2).Nodup := by
    rw [← hsplit]
    exact List.nodup_finRange L
  have hnotin1 : l0 ∉ ls1 := by
    intro hmem
    have hdis := (List.nodup_append.mp hnd).2.2
    exact hdis hmem (List.mem_cons_self l0 ls2)
  have hnotin2 : l0 ∉ ls2 := by
    have := (List.nodup_append.mp hnd).2.1
    exact (List.nodup_cons.mp this).1
  rw [hsplit, List.foldl_append,
    foldl_groupStep_id X G l2 ls1 X
      (fun l hl k => hothers l k (fun he => hnotin1 (he ▸ hl))),
    List.foldl_cons]
  exact foldl_groupStep_id X G l2 ls2 _
    (fun l hl k => hothers l k (fun he => hnotin2 (he ▸ hl)))

theorem shrunkVal_all_present {K L : ℕ} {pd : Fin K → ℕ} (X : GDict K pd)
    (G : Fin 2 → Fin L → Fin K → ℤ) (l2 : ℝ) (l0 : Fin L)
    (hall : ∀ k, G 0 l0 k ≠ -1) (k : Fin K) (hk : k ∈ presentSet G l0) :
    shrunkVal X G l2 l0 ⟨k, hk⟩ =
      prox_2norm (fun k2 => gatherVal X G l0 k2) l2 k := by
  unfold shrunkVal prox_2norm
  have huniv : presentSet G l0 = Finset.univ := by
    apply Finset.eq_univ_iff_forall.mpr
    intro k2
    simp [presentSet, hall k2]
  have hsum : (∑ kk : {k2 // k2 ∈ presentSet G l0},
      gatherVal X G l0 kk.1 ^ 2) = ∑ k2, gatherVal X G l0 k2 ^ 2 := by
    rw [Finset.sum_coe_sort (presentSet G l0)
      (fun k2 => gatherVal X G l0 k2 ^ 2), huniv]
  rw [hsum]

/-- C5: under the assertions of prox_2norm_G, the operator returns its
group loop; an instance whose sentinel entry G[0, l, k] is -1 for a group l
is not touched while that group is processed and its matrix is not read by
any group processing, so an instance absent from every group comes back
equal to its input and never influences the other instances; and for a map
whose only populated group spans all K instances the operator is the plain
block-2-norm shrinkage of the gathered vector written back symmetrically at
the group coordinates. -/
theorem C5_prox_2norm_G_frame {K L : ℕ} {pd : Fin K → ℕ} (X : GDict K pd)
    (G : Fin 2 → Fin L → Fin K → ℤ) {l2 : ℝ} (hl2 : 0 < l2)
    (hX : ∀ k, (X k)ᵀ = X k) :
    prox_2norm_G X G l2 = .ok (prox_2norm_G_core X G l2) ∧
    (∀ k, (∀ l, G 0 l k = -1) → prox_2norm_G_core X G l2 k = X k) ∧
    (∀ (X2 : GDict K pd) (k0 : Fin K), (∀ l, G 0 l k0 = -1) →
      (∀ j, j ≠ k0 → X2 j = X j) →
      ∀ j, j ≠ k0 →
        prox_2norm_G_core X2 G l2 j = prox_2norm_G_core X G l2 j) ∧
    (∀ l0 : Fin L, (∀ k, G 0 l0 k ≠ -1) →
      (∀ l k, l ≠ l0 → G 0 l k = -1) →
      ∀ k, prox_2norm_G_core X G l2 k =
        setEntrySym (X k) (G 0 l0 k) (G 1 l0 k)
          (prox_2norm (fun k2 => gatherVal X G l0 k2) l2 k)) := by
  refine ⟨prox_2norm_G_ok G hl2 hX,
    fun k h => prox_2norm_G_core_absent X G l2 h,
    fun X2 k0 habs hagree j hj =>
      prox_2norm_G_core_indep habs hagree l2 j hj, ?_⟩
  intro l0 hall hothers k
  rw [prox_2norm_G_core_single_group X G l2 l0 hothers]
  unfold groupStep
  rw [dif_neg (hall k)]
  rw [shrunkVal_all_present X G l2 l0 hall k]

/-- Witness for C5 with K = 2 one-dimensional instances and a single group
containing both. -/
theorem C5_prox_2norm_G_frame_witness :
    @prox_2norm_G 2 1 (fun _ => 1)
        (fun _ => Matrix.of ![![(2:ℝ)]])
        (fun _ _ _ => (0 : ℤ)) 1 =
      .ok (@prox_2norm_G_core 2 1 (fun _ => 1)
        (fun _ => Matrix.of ![![(2:ℝ)]]) (fun _ _ _ => (0 : ℤ)) (1 : ℝ)) :=
  (@C5_prox_2norm_G_frame 2 1 (fun _ => 1)
    (fun _ => Matrix.of ![![(2:ℝ)]]) (fun _ _ _ => (0 : ℤ)) 1
    (by norm_num)
    (fun k => by
      ext i j
      have hi : i = 0 := Subsingleton.elim i 0
      have hj : j = 0 := Subsingleton.elim j 0
      rw [hi, hj]
      rfl)).1

/-- Replacing the column index of setEntrySym by one with the same residue
modulo p leaves the result unchanged. -/
theorem setEntrySym_congr_mod {p : ℕ} (M : Matrix (Fin p) (Fin p) ℝ)
    {a b b2 : ℤ} (v : ℝ) (h : b % (p : ℤ) = b2 % (p : ℤ)) :
    setEntrySym M a b v = setEntrySym M a b2 v := by
  funext x y
  simp only [setEntrySym, setEntry, h]

/-- C10: prox_2norm_G decides participation of instance k in group l solely
from the first coordinate G[0, l, k].  When G[0, l, k] is not -1 while
G[1, l, k] equals -1, the instance is still a group member and the group
step gathers and writes back through the pair of symmetric assignments with
-1 as the column index; under the source language integer indexing -1
addresses the last column p - 1, so the gathered value and the write-back
coincide with those at the explicit column index p - 1.  Absence is never
detected through G[1, l, k]. -/
theorem C10_second_coordinate_sentinel {K L : ℕ} {pd : Fin K → ℕ}
    (X : GDict K pd) (G : Fin 2 → Fin L → Fin K → ℤ) (l2 : ℝ)
    (acc : GDict K pd) {l0 : Fin L} {k0 : Fin K}
    (h0 : G 0 l0 k0 ≠ -1) (h1 : G 1 l0 k0 = -1) (hp : 0 < pd k0) :
    (∀ (l : Fin L) (k : Fin K), k ∈ presentSet G l ↔ G 0 l k ≠ -1) ∧
    (∃ hk : k0 ∈ presentSet G l0,
      groupStep X G l2 acc l0 k0 =
        setEntrySym (acc k0) (G 0 l0 k0) (G 1 l0 k0)
          (shrunkVal X G l2 l0 ⟨k0, hk⟩)) ∧
    ((-1 : ℤ) % ((pd k0 : ℤ))).toNat = pd k0 - 1 ∧
    gatherVal X G l0 k0 =
      getEntry (X k0) (G 0 l0 k0) ((pd k0 : ℤ) - 1) ∧
    (∀ v : ℝ, setEntrySym (acc k0) (G 0 l0 k0) (G 1 l0 k0) v =
      setEntrySym (acc k0) (G 0 l0 k0) ((pd k0 : ℤ) - 1) v) := by
  have hk : k0 ∈ presentSet G l0 := by simp [presentSet, h0]
  refine ⟨fun l k => by simp [presentSet], ⟨hk, ?_⟩,
    neg_one_emod_toNat hp, ?_, ?_⟩
  · unfold groupStep
    rw [dif_neg h0]
  · unfold gatherVal
    rw [h1]
    exact getEntry_congr_mod _ (neg_one_emod_cast _)
  · intro v
    rw [h1]
    exact setEntrySym_congr_mod _ v (neg_one_emod_cast _)

/-- Witness for C10 with one 2 x 2 instance and one group whose row index
is 0 and whose column index is the sentinel -1. -/
theorem C10_second_coordinate_sentinel_witness :
    ((0 : ℤ) ≠ -1) ∧ ((-1 : ℤ) = -1) ∧ (0 < 2) ∧
    ((-1 : ℤ) % ((2 : ℕ) : ℤ)).toNat = 2 - 1 :=
  ⟨by decide, rfl, by decide,
    (@C10_second_coordinate_sentinel 1 1 (fun _ => 2)
      (fun _ => Matrix.of ![![(1:ℝ), 2], ![2, 3]])
      (fun a _ _ => if a = 0 then 0 else -1) 1
      (fun _ => Matrix.of ![![(1:ℝ), 2], ![2, 3]])
      0 0
      (by decide) (by decide) (by decide)).2.2.1⟩
